import Mathlib

/-!
# Verification of the fuzzywuzzy string-scoring core

A shallow embedding, in Lean 4, of the scoring core of the `fuzzywuzzy`
Rust crate, together with theorems settling the specification claims
about it.

Modelling conventions:

* Rust strings are embedded as their code-point sequences, `List Char`
  (called `Str` below).  `CodePointSegmenter.segment` is therefore the
  identity on this representation.  The crate's generic sequence
  functions (`src/primitives.rs`) are embedded over `List α` with
  decidable equality, exactly as they are generic over `T: Eq`.
* `usize` arithmetic is embedded as `Nat`; the only subtractions the
  sources perform on in-range data are non-truncating, and where the
  Rust source could underflow (`(high2 - low2) - size + 1` in
  `find_longest_match`, reachable only through ranges that trip the
  `debug_assert!` there) the embedding stays total while the separate
  `Checked` variants model the assertions (see the C9 theorem).
* The `f32`/`f64` score arithmetic is embedded as exact rational
  arithmetic with round-half-away-from-zero (`Float::round`).  All
  quantities involved are integers up to 100 scaled by the constants
  0.95/0.9/0.6, for which the floating-point computations of the source
  are exactly rounded, so the rational model agrees with the binary one
  on every value the programs produce.
* `char::is_alphanumeric`, `char::is_whitespace`, per-char lowercasing
  and `str` ordering are modelled by the corresponding Lean `Char`
  operations; they agree on ASCII, which covers every concrete input
  appearing in the claims; the universally-quantified theorems below
  depend on the normalizer pipeline only through its output.
-/

set_option linter.unusedSectionVars false

namespace FuzzyWuzzy

/-- Rust strings at the code-point level. -/
abbrev Str := List Char

/-- The slice `l[start..start+len]` of a sequence (clipped at the end,
as Rust slicing of in-bounds ranges never clips; all in-range uses have
`start+len` within bounds). -/
def sliceLen {α : Type} (l : List α) (start len : Nat) : List α :=
  (l.drop start).take len

namespace primitives

/-- primitives.rs: `MatchingStreak` — a matching streak of characters
between two strings. -/
structure MatchingStreak where
  idx1 : Nat
  idx2 : Nat
  size : Nat
deriving DecidableEq

variable {α : Type} [DecidableEq α]

/-- The innermost loop of `find_longest_match`
(`for window_start in 0..((high2 - low2) - size + 1)`): starting at
`cur` with `fuel` iterations left, return the first window offset whose
window of length `size` into `longsub` equals
`shorter[low1+start..low1+start+size]`. -/
def flmWindow (shorter longsub : List α) (low1 size start : Nat) :
    Nat → Nat → Option Nat
  | _, 0 => none
  | cur, fuel + 1 =>
    if sliceLen longsub cur size = sliceLen shorter (low1 + start) size then
      some cur
    else
      flmWindow shorter longsub low1 size start (cur + 1) fuel

/-- The middle loop of `find_longest_match`
(`for start in 0..len - size + 1`): for each start offset into
`shorter`'s window, scan `longsub` for a window equal to the substring
of length `size` beginning there. -/
def flmStart (shorter longsub : List α) (low1 size w2 : Nat) :
    Nat → Nat → Option (Nat × Nat)
  | _, 0 => none
  | cur, fuel + 1 =>
    match flmWindow shorter longsub low1 size cur 0 (w2 - size + 1) with
    | some ws => some (cur, ws)
    | none => flmStart shorter longsub low1 size w2 (cur + 1) fuel

/-- The outer loop of `find_longest_match`
(`for size in (1..len + 1).rev()`): try sizes from `size` down to 1. -/
def flmSize (shorter longsub : List α) (low1 len w2 : Nat) :
    Nat → Option (Nat × Nat × Nat)
  | 0 => none
  | size + 1 =>
    match flmStart shorter longsub low1 (size + 1) w2 0 (len - (size + 1) + 1) with
    | some (st, ws) => some (size + 1, st, ws)
    | none => flmSize shorter longsub low1 len w2 size

/-- primitives.rs: `find_longest_match` — finds the longest matching
streak of characters of `shorter[low1..high1]` in `longer[low2..high2]`,
trying sizes from `high1-low1` down to 1, start offsets in `shorter`
left to right, and window offsets in `longer` left to right, returning
the first match found, or a zero-length streak anchored at
`(low1, low2)`. -/
def find_longest_match (shorter longer : List α)
    (low1 high1 low2 high2 : Nat) : MatchingStreak :=
  match flmSize shorter (sliceLen longer low2 (high2 - low2)) low1
      (high1 - low1) (high2 - low2) (high1 - low1) with
  | some (size, st, ws) => ⟨low1 + st, low2 + ws, size⟩
  | none => ⟨low1, low2, 0⟩

/-! ### Loop characterizations for `find_longest_match` -/

theorem flmWindow_eq_some {shorter longsub : List α} {low1 size start : Nat}
    {cur fuel ws : Nat}
    (h : flmWindow shorter longsub low1 size start cur fuel = some ws) :
    cur ≤ ws ∧ ws < cur + fuel ∧
      sliceLen longsub ws size = sliceLen shorter (low1 + start) size ∧
      ∀ w, cur ≤ w → w < ws →
        sliceLen longsub w size ≠ sliceLen shorter (low1 + start) size := by
  induction fuel generalizing cur with
  | zero => simp [flmWindow] at h
  | succ n ih =>
    rw [flmWindow] at h
    split at h
    · next heq =>
      cases h
      exact ⟨Nat.le_refl _, by omega, heq, fun w hw1 hw2 => absurd hw1 (by omega)⟩
    · next hne =>
      obtain ⟨h1, h2, h3, h4⟩ := ih h
      refine ⟨by omega, by omega, h3, fun w hw1 hw2 => ?_⟩
      rcases Nat.eq_or_lt_of_le hw1 with rfl | hlt
      · exact hne
      · exact h4 w hlt hw2

theorem flmWindow_eq_none {shorter longsub : List α} {low1 size start : Nat}
    {cur fuel : Nat}
    (h : flmWindow shorter longsub low1 size start cur fuel = none) :
    ∀ w, cur ≤ w → w < cur + fuel →
      sliceLen longsub w size ≠ sliceLen shorter (low1 + start) size := by
  induction fuel generalizing cur with
  | zero => intro w hw1 hw2; omega
  | succ n ih =>
    rw [flmWindow] at h
    split at h
    · exact absurd h (by simp)
    · next hne =>
      intro w hw1 hw2
      rcases Nat.eq_or_lt_of_le hw1 with rfl | hlt
      · exact hne
      · exact ih h w hlt (by omega)

theorem flmStart_eq_some {shorter longsub : List α} {low1 size w2 : Nat}
    {cur fuel st ws : Nat}
    (h : flmStart shorter longsub low1 size w2 cur fuel = some (st, ws)) :
    cur ≤ st ∧ st < cur + fuel ∧
      flmWindow shorter longsub low1 size st 0 (w2 - size + 1) = some ws ∧
      ∀ t, cur ≤ t → t < st →
        flmWindow shorter longsub low1 size t 0 (w2 - size + 1) = none := by
  induction fuel generalizing cur with
  | zero => simp [flmStart] at h
  | succ n ih =>
    rw [flmStart] at h
    split at h
    · next hw =>
      cases h
      exact ⟨Nat.le_refl _, by omega, hw, fun t ht1 ht2 => absurd ht1 (by omega)⟩
    · next hw =>
      obtain ⟨h1, h2, h3, h4⟩ := ih h
      refine ⟨by omega, by omega, h3, fun t ht1 ht2 => ?_⟩
      rcases Nat.eq_or_lt_of_le ht1 with rfl | hlt
      · exact hw
      · exact h4 t hlt ht2

theorem flmStart_eq_none {shorter longsub : List α} {low1 size w2 : Nat}
    {cur fuel : Nat}
    (h : flmStart shorter longsub low1 size w2 cur fuel = none) :
    ∀ t, cur ≤ t → t < cur + fuel →
      flmWindow shorter longsub low1 size t 0 (w2 - size + 1) = none := by
  induction fuel generalizing cur with
  | zero => intro t ht1 ht2; omega
  | succ n ih =>
    rw [flmStart] at h
    split at h
    · exact absurd h (by simp)
    · next hw =>
      intro t ht1 ht2
      rcases Nat.eq_or_lt_of_le ht1 with rfl | hlt
      · exact hw
      · exact ih h t hlt (by omega)

theorem flmSize_eq_some {shorter longsub : List α} {low1 len w2 : Nat}
    {size0 sz st ws : Nat}
    (h : flmSize shorter longsub low1 len w2 size0 = some (sz, st, ws)) :
    1 ≤ sz ∧ sz ≤ size0 ∧
      flmStart shorter longsub low1 sz w2 0 (len - sz + 1) = some (st, ws) ∧
      ∀ s, sz < s → s ≤ size0 →
        flmStart shorter longsub low1 s w2 0 (len - s + 1) = none := by
  induction size0 with
  | zero => simp [flmSize] at h
  | succ n ih =>
    rw [flmSize] at h
    split at h
    · next st' ws' hs =>
      cases h
      exact ⟨by omega, Nat.le_refl _, hs, fun s hs1 hs2 => by omega⟩
    · next hs =>
      obtain ⟨h1, h2, h3, h4⟩ := ih h
      refine ⟨h1, by omega, h3, fun s hs1 hs2 => ?_⟩
      rcases Nat.eq_or_lt_of_le hs2 with rfl | hlt
      · exact hs
      · exact h4 s hs1 (by omega)

theorem flmSize_eq_none {shorter longsub : List α} {low1 len w2 : Nat}
    {size0 : Nat}
    (h : flmSize shorter longsub low1 len w2 size0 = none) :
    ∀ s, 1 ≤ s → s ≤ size0 →
      flmStart shorter longsub low1 s w2 0 (len - s + 1) = none := by
  induction size0 with
  | zero => intro s hs1 hs2; omega
  | succ n ih =>
    rw [flmSize] at h
    split at h
    · exact absurd h (by simp)
    · next hs =>
      intro s hs1 hs2
      rcases Nat.eq_or_lt_of_le hs2 with rfl | hlt
      · exact hs
      · exact ih h s hs1 (by omega)

/-! ### Slice arithmetic -/

theorem sliceLen_length {l : List α} {s n : Nat} :
    (sliceLen l s n).length = min n (l.length - s) := by
  simp [sliceLen]

theorem sliceLen_sliceLen {l : List α} {lo w2 ws sz : Nat} (h : ws + sz ≤ w2) :
    sliceLen (sliceLen l lo w2) ws sz = sliceLen l (lo + ws) sz := by
  simp only [sliceLen, List.drop_take, List.drop_drop]
  rw [List.take_take]
  congr 1
  omega

/-! ### Basic facts about `find_longest_match` -/

/-- A zero-size result is anchored at `(low1, low2)`. -/
theorem find_longest_match_zero {s l : List α} {l1 h1 l2 h2 : Nat}
    (h : (find_longest_match s l l1 h1 l2 h2).size = 0) :
    find_longest_match s l l1 h1 l2 h2 = ⟨l1, l2, 0⟩ := by
  unfold find_longest_match at *
  split at h
  · next heq => exact absurd (flmSize_eq_some heq).1 (by simp_all)
  · rfl

/-- A nonzero matching streak lies inside the requested windows and its
slices really are equal.  Only in-bounds windows are assumed; the two
window spans need not be ordered. -/
theorem find_longest_match_bounds {s l : List α} {l1 h1 l2 h2 : Nat}
    (hh1 : l1 ≤ h1) (hs : h1 ≤ s.length) (hh2 : l2 ≤ h2) (hl : h2 ≤ l.length)
    (hk : (find_longest_match s l l1 h1 l2 h2).size ≠ 0) :
    1 ≤ (find_longest_match s l l1 h1 l2 h2).size ∧
    l1 ≤ (find_longest_match s l l1 h1 l2 h2).idx1 ∧
    (find_longest_match s l l1 h1 l2 h2).idx1
      + (find_longest_match s l l1 h1 l2 h2).size ≤ h1 ∧
    l2 ≤ (find_longest_match s l l1 h1 l2 h2).idx2 ∧
    (find_longest_match s l l1 h1 l2 h2).idx2
      + (find_longest_match s l l1 h1 l2 h2).size ≤ h2 ∧
    sliceLen s (find_longest_match s l l1 h1 l2 h2).idx1
        (find_longest_match s l l1 h1 l2 h2).size
      = sliceLen l (find_longest_match s l l1 h1 l2 h2).idx2
        (find_longest_match s l l1 h1 l2 h2).size := by
  revert hk
  unfold find_longest_match
  split
  · next sz st ws heq =>
    intro _
    dsimp only
    obtain ⟨hsz1, hsz2, hst, -⟩ := flmSize_eq_some heq
    obtain ⟨-, hstlt, hws, -⟩ := flmStart_eq_some hst
    obtain ⟨-, hwslt, hslice, -⟩ := flmWindow_eq_some hws
    simp only [Nat.zero_add] at hstlt hwslt
    -- first rule out sz > h2 - l2 via the lengths of the equal slices
    have hlen := congrArg List.length hslice
    rw [sliceLen_length, sliceLen_length, sliceLen_length] at hlen
    have hszw2 : sz ≤ h2 - l2 := by
      rcases le_or_lt sz (h2 - l2) with hle | hgt
      · exact hle
      · exfalso
        simp only [Nat.min_def] at hlen
        split_ifs at hlen <;> omega
    have hws2 : ws + sz ≤ h2 - l2 := by omega
    have hslice2 : sliceLen (sliceLen l l2 (h2 - l2)) ws sz
        = sliceLen l (l2 + ws) sz := sliceLen_sliceLen hws2
    refine ⟨by omega, by omega, by omega, by omega, by omega, ?_⟩
    rw [hslice2] at hslice
    exact hslice.symm
  · next heq => intro hk; simp at hk

/-- Unconditional first-dimension bounds for a nonzero streak, used for
the termination of the work-queue loop. -/
theorem flm_idx1_le {s l : List α} {l1 h1 l2 h2 : Nat}
    (hm : (find_longest_match s l l1 h1 l2 h2).size ≠ 0) :
    1 ≤ (find_longest_match s l l1 h1 l2 h2).size ∧
    l1 ≤ (find_longest_match s l l1 h1 l2 h2).idx1 ∧
    (find_longest_match s l l1 h1 l2 h2).idx1
      + (find_longest_match s l l1 h1 l2 h2).size ≤ l1 + (h1 - l1) := by
  revert hm
  unfold find_longest_match
  split
  · next sz st ws heq =>
    intro _
    dsimp only
    obtain ⟨hsz1, hsz2, hst, -⟩ := flmSize_eq_some heq
    obtain ⟨-, hstlt, -, -⟩ := flmStart_eq_some hst
    omega
  · next heq => intro hk; simp at hk

/-! ### `get_matching_blocks` -/

/-- A matching block `(start_in_seq1, start_in_seq2, length)`. -/
abbrev Block := Nat × Nat × Nat

/-- A work-queue entry `(low1, high1, low2, high2)`. -/
abbrev Range4 := Nat × Nat × Nat × Nat

/-- Termination measure for the work-queue loop: each popped range of
span `s` is replaced by ranges whose spans sum to at most `s - size`. -/
def rangeWeight (r : Range4) : Nat := 2 * (r.2.1 - r.1) + 1

def queueWeight (q : List Range4) : Nat := (q.map rangeWeight).sum

/-- The two sub-ranges pushed onto the queue for a nonzero match `m`
found in `(low1, high1, low2, high2)`: Rust pushes the before-range and
then the after-range, and `Vec::pop` takes the last push, so the
after-range sits in front. -/
def gmbPushes (m : MatchingStreak) (low1 high1 low2 high2 : Nat) :
    List Range4 :=
  (if m.idx1 + m.size < high1 ∧ m.idx2 + m.size < high2 then
      [(m.idx1 + m.size, high1, m.idx2 + m.size, high2)] else [])
    ++ (if low1 < m.idx1 ∧ low2 < m.idx2 then
      [(low1, m.idx1, low2, m.idx2)] else [])

theorem queueWeight_append (q1 q2 : List Range4) :
    queueWeight (q1 ++ q2) = queueWeight q1 + queueWeight q2 := by
  simp [queueWeight]

/-- Each loop iteration strictly decreases the queue weight. -/
theorem queueWeight_step_lt {s l : List α} {low1 high1 low2 high2 : Nat}
    (rest : List Range4)
    (hm : (find_longest_match s l low1 high1 low2 high2).size ≠ 0) :
    queueWeight (gmbPushes (find_longest_match s l low1 high1 low2 high2)
        low1 high1 low2 high2 ++ rest)
      < queueWeight ((low1, high1, low2, high2) :: rest) := by
  have hb := flm_idx1_le hm
  rw [queueWeight_append]
  simp only [queueWeight, gmbPushes, List.map_cons, List.sum_cons]
  split <;> split <;>
    simp only [List.map_append, List.sum_append, List.map_cons,
      List.map_nil, List.sum_cons, List.sum_nil, rangeWeight] <;>
    omega

/-- primitives.rs: the `while let Some(..) = queue.pop()` loop of
`get_matching_blocks`, with an explicit fuel so that it is structurally
recursive (and hence evaluates inside the kernel); the fuel never runs
out when it starts at the queue weight (`gmbCollectF_congr`). -/
def gmbCollectF (shorter longer : List α) :
    Nat → List Range4 → List Block → List Block
  | 0, _, acc => acc
  | _ + 1, [], acc => acc
  | fuel + 1, (low1, high1, low2, high2) :: rest, acc =>
    let m := find_longest_match shorter longer low1 high1 low2 high2
    if m.size = 0 then
      gmbCollectF shorter longer fuel rest acc
    else
      gmbCollectF shorter longer fuel
        (gmbPushes m low1 high1 low2 high2 ++ rest)
        ((m.idx1, m.idx2, m.size) :: acc)

theorem gmbCollectF_nil {s l : List α} (f : Nat) (acc : List Block) :
    gmbCollectF s l f [] acc = acc := by
  cases f <;> rfl

/-- Fuel adequacy: any two sufficient fuels compute the same result. -/
theorem gmbCollectF_congr {s l : List α} :
    ∀ {f1 f2 : Nat} {q : List Range4} {acc : List Block},
      queueWeight q ≤ f1 → queueWeight q ≤ f2 →
      gmbCollectF s l f1 q acc = gmbCollectF s l f2 q acc := by
  intro f1
  induction f1 with
  | zero =>
    intro f2 q acc h1 h2
    have hq : q = [] := by
      cases q with
      | nil => rfl
      | cons r rest =>
        exfalso
        simp only [queueWeight, List.map_cons, List.sum_cons, rangeWeight] at h1
        omega
    subst hq
    rw [gmbCollectF_nil, gmbCollectF_nil]
  | succ g ih =>
    intro f2 q acc h1 h2
    cases q with
    | nil => rw [gmbCollectF_nil, gmbCollectF_nil]
    | cons r rest =>
      obtain ⟨low1, high1, low2, high2⟩ := r
      have hw1 : 0 < queueWeight ((low1, high1, low2, high2) :: rest) := by
        simp only [queueWeight, List.map_cons, List.sum_cons, rangeWeight]
        omega
      cases f2 with
      | zero => omega
      | succ g2 =>
        show gmbCollectF s l (g + 1) _ acc = gmbCollectF s l (g2 + 1) _ acc
        rw [gmbCollectF, gmbCollectF]
        have hrest : queueWeight rest < queueWeight
            ((low1, high1, low2, high2) :: rest) := by
          simp only [queueWeight, List.map_cons, List.sum_cons, rangeWeight]
          omega
        by_cases hm : (find_longest_match s l low1 high1 low2 high2).size = 0
        · simp only [hm, if_pos rfl, if_true]
          exact ih (by omega) (by omega)
        · have hlt := queueWeight_step_lt (s := s) (l := l) rest hm
          simp only [if_neg hm]
          exact ih (by omega) (by omega)

/-- The work-queue loop at its canonical fuel. -/
def gmbCollect (shorter longer : List α) (q : List Range4)
    (acc : List Block) : List Block :=
  gmbCollectF shorter longer (queueWeight q) q acc

theorem gmbCollect_nil {s l : List α} (acc : List Block) :
    gmbCollect s l [] acc = acc := rfl

/-- The step equation of the loop. -/
theorem gmbCollect_cons {s l : List α} {low1 high1 low2 high2 : Nat}
    (rest : List Range4) (acc : List Block) :
    gmbCollect s l ((low1, high1, low2, high2) :: rest) acc =
      (if (find_longest_match s l low1 high1 low2 high2).size = 0 then
        gmbCollect s l rest acc
      else
        gmbCollect s l
          (gmbPushes (find_longest_match s l low1 high1 low2 high2)
            low1 high1 low2 high2 ++ rest)
          ((((find_longest_match s l low1 high1 low2 high2).idx1,
            (find_longest_match s l low1 high1 low2 high2).idx2,
            (find_longest_match s l low1 high1 low2 high2).size)) :: acc)) := by
  have hw : 0 < queueWeight ((low1, high1, low2, high2) :: rest) := by
    simp only [queueWeight, List.map_cons, List.sum_cons, rangeWeight]
    omega
  have hrest : queueWeight rest
      < queueWeight ((low1, high1, low2, high2) :: rest) := by
    simp only [queueWeight, List.map_cons, List.sum_cons, rangeWeight]
    omega
  unfold gmbCollect
  obtain ⟨g, hg⟩ : ∃ g, queueWeight ((low1, high1, low2, high2) :: rest)
      = g + 1 := ⟨_, (Nat.succ_pred_eq_of_pos hw).symm⟩
  rw [hg, gmbCollectF]
  by_cases hm : (find_longest_match s l low1 high1 low2 high2).size = 0
  · simp only [hm, if_pos rfl, if_true]
    exact gmbCollectF_congr (by omega) (by omega)
  · have hlt := queueWeight_step_lt (s := s) (l := l) rest hm
    simp only [if_neg hm]
    exact gmbCollectF_congr (by omega) (by omega)

/-- The lexicographic order on matching-block triples used by Rust's
`matching_blocks.sort_unstable()` (`Ord` on `(usize, usize, usize)`). -/
def blockLe (x y : Block) : Prop :=
  x.1 < y.1 ∨ (x.1 = y.1 ∧ (x.2.1 < y.2.1 ∨ (x.2.1 = y.2.1 ∧ x.2.2 ≤ y.2.2)))

instance : DecidableRel blockLe := fun x y => by
  unfold blockLe; infer_instance

instance : IsTotal Block blockLe := ⟨by intro x y; unfold blockLe; omega⟩

instance : IsTrans Block blockLe := ⟨by intro x y z; unfold blockLe; omega⟩

/-- primitives.rs: the adjacent-block collapsing loop of
`get_matching_blocks`, with the running block `(i1, j1, k1)` made
explicit (it starts as the dummy `(0, 0, 0)`).  A finished running
block is emitted only if its length is nonzero. -/
def collapseAdjacent : Block → List Block → List Block
  | (i1, j1, k1), [] => if k1 ≠ 0 then [(i1, j1, k1)] else []
  | (i1, j1, k1), (i2, j2, k2) :: rest =>
    if i1 + k1 = i2 ∧ j1 + k1 = j2 then
      collapseAdjacent (i1, j1, k1 + k2) rest
    else if k1 ≠ 0 then
      (i1, j1, k1) :: collapseAdjacent (i2, j2, k2) rest
    else
      collapseAdjacent (i2, j2, k2) rest

/-- `get_matching_blocks` on an already length-ordered pair
(`shorter.length ≤ longer.length`): collect raw matches, sort them
lexicographically (`sort_unstable`; insertion sort produces the same
list, the sorted permutation of a multiset under a total antisymmetric
order being unique), collapse adjacent blocks, and append the sentinel.
-/
def gmbCore (shorter longer : List α) : List Block :=
  collapseAdjacent (0, 0, 0)
      (List.insertionSort blockLe
        (gmbCollect shorter longer [(0, shorter.length, 0, longer.length)] []))
    ++ [(shorter.length, longer.length, 0)]

/-- primitives.rs: `get_matching_blocks` — returns the list of triples
describing matching sequences, the first index into `a`, the second
into `b`, ending with the sentinel `(a.length, b.length, 0)`.  The
shorter sequence is matched inside the longer one and the indices are
swapped back if the arguments arrived in descending length order. -/
def get_matching_blocks (a b : List α) : List Block :=
  if a.length ≤ b.length then gmbCore a b
  else (gmbCore b a).map (fun x => (x.2.1, x.1, x.2.2))

/-! ### `Score` and `simple_ratio` -/

/-- primitives.rs: `Score` — an integer score of 0–100 inclusive. -/
structure Score where
  score : Nat
deriving DecidableEq

/-- primitives.rs: `Score::new` — the fallible constructor; `none` is
the out-of-range error branch. -/
def Score.new (score : Nat) : Option Score :=
  if score ≤ 100 then some ⟨score⟩ else none

/-- The total length of matching runs in a block list. -/
def sumSizes (bs : List Block) : Nat := (bs.map (fun b => b.2.2)).sum

/-- `Float::round` on a nonnegative value (round half away from zero),
as used by the `as u8` conversions of the scoring functions. -/
def roundQ (q : ℚ) : Nat := (Int.floor (q + 1 / 2)).toNat

/-- `(100.0 * (2.0 * m) / s).round()` computed exactly: the real value
of the float expression is the rational `200 m / s`, and its rounding
is `⌊(400 m + s) / 2 s⌋`.  (For all against-spec relevant sizes the
`f32` computation of the source is exactly this value; see the header.)
The equivalence with the rational form is `pctRound_eq_roundQ`. -/
def pctRound (m s : Nat) : Nat := (400 * m + s) / (2 * s)

theorem pctRound_eq_roundQ (m s : Nat) (hs : 0 < s) :
    pctRound m s = roundQ (100 * (2 * (m : ℚ)) / (s : ℚ)) := by
  unfold pctRound roundQ
  have hs' : (s : ℚ) ≠ 0 := Nat.cast_ne_zero.mpr hs.ne'
  have key : 100 * (2 * (m : ℚ)) / (s : ℚ) + 1 / 2
      = ((400 * m + s : ℕ) : ℚ) / ((2 * s : ℕ) : ℚ) := by
    push_cast
    field_simp
    ring
  rw [key, Rat.floor_natCast_div_natCast, ← Int.natCast_div, Int.toNat_natCast]

/-- primitives.rs: `simple_ratio` — double the total matched length
over the total length, as a percentage, rounded; `100` when both
sequences are empty (the `is_normal` branch). -/
def simple_ratio (a b : List α) : Nat :=
  if a.length + b.length ≠ 0 then
    pctRound (sumSizes (get_matching_blocks a b)) (a.length + b.length)
  else
    100

end primitives

/-! ## Normalizers and segmentation helpers

`src/normalization.rs` and the string utilities.  Strings are already
code-point lists, so `CodePointSegmenter.segment` is the identity and
the normalizers are `Str → Str` functions. -/

/-- normalization.rs: `PassthroughNormalizer`. -/
def passthroughNormalizer : Str → Str := id

/-- normalization.rs: `AsciiOnlyNormalizer` — removes non-ASCII code
points (`char::is_ascii` is `c as u32 <= 0x7F`). -/
def asciiOnlyNormalizer (s : Str) : Str := s.filter (fun c => c.toNat ≤ 0x7F)

/-- Model of Rust `char::is_alphanumeric` for this development: the
crate treats `'_'` separately where it matters.  Agrees with the Rust
predicate on ASCII (the claims' concrete inputs); the general theorems
below depend on the normalizers only through their output. -/
def charIsAlphanumeric (c : Char) : Bool := c.isAlphanum

/-- normalization.rs: `SplittingAlphanumericNormalizer` — splits on
runs of characters that are neither `'_'` nor alphanumeric and
intersperses single spaces (equivalently, each such character becomes
one space). -/
def splittingAlphanumericNormalizer (s : Str) : Str :=
  ((s.splitOnP (fun c => !(c = '_' || charIsAlphanumeric c))).intersperse
    [' ']).flatten

/-- normalization.rs: `LowerCaseNormalizer` (`str::to_lowercase`,
modelled per code point; exact on ASCII). -/
def lowerCaseNormalizer (s : Str) : Str := s.map Char.toLower

/-- `str::split_whitespace`: maximal runs of non-whitespace characters.
The accumulator holds the current (reversed) token. -/
def splitWhitespaceAux : Str → Str → List Str
  | [], cur => if cur.isEmpty then [] else [cur.reverse]
  | c :: cs, cur =>
    if c.isWhitespace then
      if cur.isEmpty then splitWhitespaceAux cs []
      else cur.reverse :: splitWhitespaceAux cs []
    else splitWhitespaceAux cs (c :: cur)

def splitWhitespace (s : Str) : List Str := splitWhitespaceAux s []

/-- The `Ord` order on `&str` (byte order, which equals code-point
order for UTF-8), as a Boolean relation for sorting. -/
def strLeB : Str → Str → Bool
  | [], _ => true
  | _ :: _, [] => false
  | a :: as, b :: bs =>
    if a.toNat < b.toNat then true
    else if b.toNat < a.toNat then false
    else strLeB as bs

def strLe (x y : Str) : Prop := strLeB x y = true

instance : DecidableRel strLe := fun x y => by unfold strLe; infer_instance

/-- `Vec::<&str>::sort` / `sort_unstable`: sorting is modelled by
insertion sort, which yields the same list (the sorted permutation). -/
def sortStrs (ts : List Str) : List Str := List.insertionSort strLe ts

/-- `Vec::<&str>::join(" ")`. -/
def joinSpace (ts : List Str) : Str := (ts.intersperse [' ']).flatten

/-- normalization.rs: `WhitespaceSplitSortedTokenNormalizer` — split on
whitespace, sort the tokens, rejoin with single spaces. -/
def whitespaceSplitSortedTokenNormalizer (s : Str) : Str :=
  joinSpace (sortStrs (splitWhitespace s))

/-- normalization.rs: `ComposedNormalizer` — sequential application. -/
def composedNormalizer (ns : List (Str → Str)) : Str → Str :=
  fun s => ns.foldl (fun cur n => n cur) s

/-- `str::trim`. -/
def trimChars (s : Str) : Str :=
  ((s.dropWhile Char.isWhitespace).reverse.dropWhile Char.isWhitespace).reverse

/-! ## `fuzzywuzzy_compatible` module -/

namespace compat

open primitives

/-- fuzzywuzzy_compatible/utils.rs: `asciionly`. -/
def asciionly (s : Str) : Str := s.filter (fun c => c.toNat ≤ 0x7F)

/-- fuzzywuzzy_compatible/string_processing.rs:
`replace_non_letters_non_numbers_with_whitespace` — delegates to
`SplittingAlphanumericNormalizer`. -/
def replace_non_letters_non_numbers_with_whitespace (s : Str) : Str :=
  splittingAlphanumericNormalizer s

/-- fuzzywuzzy_compatible/utils.rs: `full_process` — optional ASCII
filtering, non-letter/number runs to spaces, lowercase, trim. -/
def full_process (s : Str) (force_ascii : Bool) : Str :=
  let tmp := if force_ascii then asciionly s else s
  trimChars
    (lowerCaseNormalizer (replace_non_letters_non_numbers_with_whitespace tmp))

/-- Modelled from the spec: `crate::fuzz::ratio_full` is referenced by
`fuzzywuzzy_compatible/fuzz.rs` but its definition is not among the
provided sources.  Following §4.2 and the house pattern of
`partial_ratio_full` (trivial short-circuit on the raw inputs, then
normalize, segment and score): equal inputs score 100, exactly one
empty input scores 0, otherwise `simple_ratio` of the normalized
code-point sequences. -/
def ratio_full (a b : Str) (normalizer : Str → Str) : Nat :=
  if a = b then 100
  else if a.isEmpty ≠ b.isEmpty then 0
  else simple_ratio (normalizer a) (normalizer b)

/-- Modelled from the spec: `crate::fuzz::ratio`, the whole-string
ratio primitive used by `fuzzywuzzy_compatible/fuzz.rs`, is
`ratio_full` with no normalization and code-point segmentation. -/
def ratio (a b : Str) : Nat := ratio_full a b passthroughNormalizer

/-- fuzzywuzzy_compatible/fuzz.rs: the candidate-window loop of
`partial_ratio_full`, with the running maximum explicit.  A candidate
scoring above 99 returns 100 immediately. -/
def partialLoop (shorter longer : Str) : List Block → Nat → Nat
  | [], mx => mx
  | (i, j, _) :: rest, mx =>
    let long_start := if j > i then j - i else 0
    let long_end := min (long_start + shorter.length) longer.length
    let r := simple_ratio shorter (sliceLen longer long_start (long_end - long_start))
    if r > 99 then 100
    else if r > mx then partialLoop shorter longer rest r
    else partialLoop shorter longer rest mx

/-- fuzzywuzzy_compatible/fuzz.rs: `partial_ratio_full` — trivial
short-circuit (`check_trivial!`), normalize and segment both inputs,
order them by length, and take the best candidate window anchored at
the matching blocks of `get_matching_blocks(shorter, longer)`. -/
def partial_ratio_full (a b : Str) (normalizer : Str → Str) : Nat :=
  if a = b then 100
  else if a.isEmpty ≠ b.isEmpty then 0
  else
    let na := normalizer a
    let nb := normalizer b
    let shorter := if na.length ≤ nb.length then na else nb
    let longer := if na.length ≤ nb.length then nb else na
    partialLoop shorter longer (get_matching_blocks shorter longer) 0

/-- fuzzywuzzy_compatible/fuzz.rs: `partial_ratio`. -/
def partial_ratio (a b : Str) : Nat :=
  partial_ratio_full a b passthroughNormalizer

/-- The token-sort normalizer pipeline of
`fuzzywuzzy_compatible/fuzz.rs` (`token_sort_ratio` and
`partial_token_sort_ratio`), selected by the flags. -/
def tokenSortNormalizer (force_ascii : Bool) : Str → Str :=
  if force_ascii then
    composedNormalizer [asciiOnlyNormalizer, splittingAlphanumericNormalizer,
      lowerCaseNormalizer, whitespaceSplitSortedTokenNormalizer]
  else
    composedNormalizer [splittingAlphanumericNormalizer,
      lowerCaseNormalizer, whitespaceSplitSortedTokenNormalizer]

/-- fuzzywuzzy_compatible/fuzz.rs: `token_sort_ratio`. -/
def token_sort_ratio (a b : Str) (force_ascii fullProcess : Bool) : Nat :=
  match force_ascii, fullProcess with
  | false, true => ratio_full a b (tokenSortNormalizer false)
  | true, true => ratio_full a b (tokenSortNormalizer true)
  | _, false => ratio_full a b passthroughNormalizer

/-- fuzzywuzzy_compatible/fuzz.rs: `partial_token_sort_ratio`. -/
def partial_token_sort_ratio (a b : Str) (force_ascii fullProcess : Bool) :
    Nat :=
  match force_ascii, fullProcess with
  | false, true => partial_ratio_full a b (tokenSortNormalizer false)
  | true, true => partial_ratio_full a b (tokenSortNormalizer true)
  | _, false => partial_ratio_full a b passthroughNormalizer

/-- fuzzywuzzy_compatible/fuzz.rs: `qratio`. -/
def qratio (a b : Str) (force_ascii : Bool) : Nat :=
  ratio_full a b (tokenSortNormalizer force_ascii)

/-- fuzzywuzzy_compatible/fuzz.rs: `uqratio`. -/
def uqratio (s1 s2 : Str) : Nat := qratio s1 s2 false

/-- The deduplicated tokens of a processed string, as produced by
collecting into a `HashSet` (iteration order is unspecified, but every
use below sorts the result, so the first-occurrence order is as good as
any). -/
def tokenSet (s : Str) : List Str := (splitWhitespace s).eraseDups

/-- fuzzywuzzy_compatible/fuzz.rs: `token_set` — sorted intersection
and one-sided differences of the token sets, pairwise scored. -/
def token_set (s1 s2 : Str) (partialFlag force_ascii fullProcess : Bool) :
    Nat :=
  if s1 = s2 then 100
  else if s1.isEmpty ≠ s2.isEmpty then 0
  else
    let p1 := if fullProcess then full_process s1 force_ascii else s1
    let p2 := if fullProcess then full_process s2 force_ascii else s2
    let t1 := tokenSet p1
    let t2 := tokenSet p2
    let intersect_str := joinSpace (sortStrs (t1.filter (fun t => t ∈ t2)))
    let diff1to2_str := joinSpace (sortStrs (t1.filter (fun t => t ∉ t2)))
    let diff2to1_str := joinSpace (sortStrs (t2.filter (fun t => t ∉ t1)))
    let combined_1to2 :=
      if ¬diff1to2_str.isEmpty then intersect_str ++ [' '] ++ diff1to2_str
      else intersect_str
    let combined_2to1 :=
      if ¬diff2to1_str.isEmpty then intersect_str ++ [' '] ++ diff2to1_str
      else intersect_str
    if partialFlag then
      max (max (partial_ratio intersect_str combined_1to2)
          (partial_ratio intersect_str combined_2to1))
        (partial_ratio combined_1to2 combined_2to1)
    else
      max (max (ratio intersect_str combined_1to2)
          (ratio intersect_str combined_2to1))
        (ratio combined_1to2 combined_2to1)

/-- fuzzywuzzy_compatible/fuzz.rs: `token_set_ratio`. -/
def token_set_ratio (s1 s2 : Str) (force_ascii fullProcess : Bool) : Nat :=
  token_set s1 s2 false force_ascii fullProcess

/-- fuzzywuzzy_compatible/fuzz.rs: `partial_token_set_ratio`. -/
def partial_token_set_ratio (s1 s2 : Str) (force_ascii fullProcess : Bool) :
    Nat :=
  token_set s1 s2 true force_ascii fullProcess

/-- The branch `len_ratio < 1.5` of `wratio`, in terms of the two
code-point counts.  `len_ratio` is the `f64` quotient `max / min`: for
`min = 0` it is `inf` (or NaN when also `max = 0`) and the comparison
is false; otherwise it is exactly rounded far away from the threshold,
so the comparison equals the rational one. -/
def lenRatioLt15 (mx mn : Nat) : Prop := 0 < mn ∧ 2 * mx < 3 * mn

instance : ∀ mx mn, Decidable (lenRatioLt15 mx mn) := fun _ _ => by
  unfold lenRatioLt15; infer_instance

/-- The branch `len_ratio > 8.0` of `wratio` (true for `inf`, false for
NaN). -/
def lenRatioGt8 (mx mn : Nat) : Prop := 8 * mn < mx

instance : ∀ mx mn, Decidable (lenRatioGt8 mx mn) := fun _ _ => by
  unfold lenRatioGt8; infer_instance

/-- `vec![..].iter().cloned().fold(f64::NAN, f64::max).round() as u8`,
with every candidate expressed exactly in thousandths (`f64::max`
ignores the NaN seed, so this is the rounded maximum; rounding
`V / 1000` half away from zero is `⌊(V + 500) / 1000⌋`).  The
equivalence with the rational form is `foldMax1000_eq_roundQ`. -/
def foldMax1000 (vals : List Nat) : Nat := (vals.foldl max 0 + 500) / 1000

/-- The body of `wratio` on the two processed strings: the weighted
maximum of the base ratio and either the token scores (similar
lengths) or the partially-scaled partial scores.
`partial_scale` is 0.6 or 0.9, `UNBASE_SCALE * partial_scale` is
exactly 0.570 or 0.855, `UNBASE_SCALE` is 0.95: all in thousandths. -/
def wratioCore (p1 p2 : Str) : Nat :=
  let base := ratio p1 p2
  let mx := max p1.length p2.length
  let mn := min p1.length p2.length
  let try_partial := ¬ lenRatioLt15 mx mn
  let partial_scale := if lenRatioGt8 mx mn then 600 else 900
  let unbase_partial_scale := if lenRatioGt8 mx mn then 570 else 855
  if try_partial then
    foldMax1000 [base * 1000,
      partial_ratio p1 p2 * partial_scale,
      partial_token_sort_ratio p1 p2 true false * unbase_partial_scale,
      partial_token_set_ratio p1 p2 true false * unbase_partial_scale]
  else
    foldMax1000 [base * 1000,
      token_sort_ratio p1 p2 true false * 950,
      token_set_ratio p1 p2 true false * 950]

/-- fuzzywuzzy_compatible/fuzz.rs: `wratio` — trivial short-circuit,
optional full processing, then `wratioCore`. -/
def wratio (s1 s2 : Str) (force_ascii fullProcess : Bool) : Nat :=
  if s1 = s2 then 100
  else if s1.isEmpty ≠ s2.isEmpty then 0
  else
    wratioCore (if fullProcess then full_process s1 force_ascii else s1)
      (if fullProcess then full_process s2 force_ascii else s2)

/-- fuzzywuzzy_compatible/fuzz.rs: `uwratio`. -/
def uwratio (s1 s2 : Str) (fullProcess : Bool) : Nat :=
  wratio s1 s2 false fullProcess

end compat

/-! ## The `utils` and `fuzz` modules (src/utils.rs, src/fuzz.rs)

The string-specific matcher of `utils.rs` runs the same
queue-and-longest-match algorithm as `primitives.rs`; its
`find_longest_match` takes the earliest occurrence reported by
`str::match_indices`, which at the code-point level is the same
left-to-right window scan.  It is embedded here at the code-point level
through the generic `primitives` functions (the byte-indexed slicing of
the original only differs from this on non-ASCII input, where it
miscounts indices; the claims about this module are settled on ASCII
input). -/

namespace utils

/-- utils.rs: `full_process` — optional ASCII filtering, every
non-alphanumeric character (including `'_'`, unlike the compatible
module) to a space, lowercase, trim. -/
def full_process (s : Str) (force_ascii : Bool) : Str :=
  let result := if force_ascii then s.filter (fun c => c.toNat ≤ 0x7F) else s
  trimChars
    (lowerCaseNormalizer
      (s := result.map (fun c => if charIsAlphanumeric c then c else ' ')))

/-- utils.rs: `validate_string` — the string is non-empty. -/
def validate_string (s : Str) : Bool := !s.isEmpty

end utils

namespace fuzz

open primitives

/-- fuzz.rs: `ratio` — `check_trivial!`, then double the total matched
length over the summed lengths as a rounded percentage. -/
def ratio (a b : Str) : Nat :=
  if a = b then 100
  else if a.isEmpty ≠ b.isEmpty then 0
  else
    if 0 < a.length + b.length then
      pctRound (sumSizes (get_matching_blocks a b)) (a.length + b.length)
    else 100

/-- fuzz.rs: the candidate-window loop of `partial_ratio` (scoring with
`ratio`, unlike the compatible module's `simple_ratio`). -/
def partialLoop (shorter longer : Str) : List Block → Nat → Nat
  | [], mx => mx
  | (i, j, _) :: rest, mx =>
    let long_start := if j > i then j - i else 0
    let long_end := min (long_start + shorter.length) longer.length
    let r := ratio shorter (sliceLen longer long_start (long_end - long_start))
    if r > 99 then 100
    else if r > mx then partialLoop shorter longer rest r
    else partialLoop shorter longer rest mx

/-- fuzz.rs: `partial_ratio`. -/
def partial_ratio (s1 s2 : Str) : Nat :=
  if s1 = s2 then 100
  else if s1.isEmpty ≠ s2.isEmpty then 0
  else
    let shorter := if s1.length ≤ s2.length then s1 else s2
    let longer := if s1.length ≤ s2.length then s2 else s1
    partialLoop shorter longer (get_matching_blocks shorter longer) 0

/-- fuzz.rs: `process_and_sort`. -/
def process_and_sort (s : Str) (force_ascii fullProcess : Bool) : Str :=
  let ts := if fullProcess then utils.full_process s force_ascii else s
  joinSpace (sortStrs (splitWhitespace ts))

/-- fuzz.rs: `token_sort`. -/
def token_sort (s1 s2 : Str) (partialFlag force_ascii fullProcess : Bool) :
    Nat :=
  if s1 = s2 then 100
  else if s1.isEmpty ≠ s2.isEmpty then 0
  else
    let sorted1 := process_and_sort s1 force_ascii fullProcess
    let sorted2 := process_and_sort s2 force_ascii fullProcess
    if partialFlag then partial_ratio sorted1 sorted2
    else ratio sorted1 sorted2

/-- fuzz.rs: `token_sort_ratio`. -/
def token_sort_ratio (s1 s2 : Str) (force_ascii fullProcess : Bool) : Nat :=
  token_sort s1 s2 false force_ascii fullProcess

/-- fuzz.rs: `partial_token_sort_ratio`. -/
def partial_token_sort_ratio (s1 s2 : Str) (force_ascii fullProcess : Bool) :
    Nat :=
  token_sort s1 s2 true force_ascii fullProcess

/-- fuzz.rs: `token_set` (the `HashSet`-based token comparison; see
`compat.token_set` for the set modelling). -/
def token_set (s1 s2 : Str) (partialFlag force_ascii fullProcess : Bool) :
    Nat :=
  if s1 = s2 then 100
  else if s1.isEmpty ≠ s2.isEmpty then 0
  else
    let p1 := if fullProcess then utils.full_process s1 force_ascii else s1
    let p2 := if fullProcess then utils.full_process s2 force_ascii else s2
    let t1 := compat.tokenSet p1
    let t2 := compat.tokenSet p2
    let intersect_str := joinSpace (sortStrs (t1.filter (fun t => t ∈ t2)))
    let diff1to2_str := joinSpace (sortStrs (t1.filter (fun t => t ∉ t2)))
    let diff2to1_str := joinSpace (sortStrs (t2.filter (fun t => t ∉ t1)))
    let combined_1to2 :=
      if ¬diff1to2_str.isEmpty then intersect_str ++ [' '] ++ diff1to2_str
      else intersect_str
    let combined_2to1 :=
      if ¬diff2to1_str.isEmpty then intersect_str ++ [' '] ++ diff2to1_str
      else intersect_str
    if partialFlag then
      max (max (partial_ratio intersect_str combined_1to2)
          (partial_ratio intersect_str combined_2to1))
        (partial_ratio combined_1to2 combined_2to1)
    else
      max (max (ratio intersect_str combined_1to2)
          (ratio intersect_str combined_2to1))
        (ratio combined_1to2 combined_2to1)

/-- fuzz.rs: `token_set_ratio`. -/
def token_set_ratio (s1 s2 : Str) (force_ascii fullProcess : Bool) : Nat :=
  token_set s1 s2 false force_ascii fullProcess

/-- fuzz.rs: `partial_token_set_ratio`. -/
def partial_token_set_ratio (s1 s2 : Str) (force_ascii fullProcess : Bool) :
    Nat :=
  token_set s1 s2 true force_ascii fullProcess

/-- fuzz.rs: `qratio`. -/
def qratio (s1 s2 : Str) (force_ascii : Bool) : Nat :=
  if s1 = s2 then 100
  else if s1.isEmpty ≠ s2.isEmpty then 0
  else
    let p1 := utils.full_process s1 force_ascii
    let p2 := utils.full_process s2 force_ascii
    if ¬ utils.validate_string p1 ∨ ¬ utils.validate_string p2 then 0
    else ratio p1 p2

/-- fuzz.rs: `uqratio`. -/
def uqratio (s1 s2 : Str) : Nat := qratio s1 s2 false

/-- fuzz.rs: `wratio` — like the compatible `wratio` but with the
`validate_string` guard returning 0 when either processed string is
empty. -/
def wratio (s1 s2 : Str) (force_ascii fullProcess : Bool) : Nat :=
  if s1 = s2 then 100
  else if s1.isEmpty ≠ s2.isEmpty then 0
  else
    let p1 := if fullProcess then utils.full_process s1 force_ascii else s1
    let p2 := if fullProcess then utils.full_process s2 force_ascii else s2
    if ¬ utils.validate_string p1 ∨ ¬ utils.validate_string p2 then 0
    else
      let base := ratio p1 p2
      let mx := max p1.length p2.length
      let mn := min p1.length p2.length
      let try_partial := ¬ compat.lenRatioLt15 mx mn
      let partial_scale := if compat.lenRatioGt8 mx mn then 600 else 900
      let unbase_partial_scale :=
        if compat.lenRatioGt8 mx mn then 570 else 855
      if try_partial then
        compat.foldMax1000 [base * 1000,
          partial_ratio p1 p2 * partial_scale,
          partial_token_sort_ratio p1 p2 true false * unbase_partial_scale,
          partial_token_set_ratio p1 p2 true false * unbase_partial_scale]
      else
        compat.foldMax1000 [base * 1000,
          token_sort_ratio p1 p2 true false * 950,
          token_set_ratio p1 p2 true false * 950]

/-- fuzz.rs: `uwratio`. -/
def uwratio (s1 s2 : Str) (fullProcess : Bool) : Nat :=
  wratio s1 s2 false fullProcess

end fuzz

/-! ## Checked variants

The `debug_assert!` preconditions of `primitives::find_longest_match`,
threaded through `get_matching_blocks` as an `Option` (`none` = a
failed assertion, i.e. a panic of the debug build; on the same inputs
the release build underflows `(high2 - low2) - size + 1` and panics on
an out-of-bounds slice). -/

namespace primitives

variable {α : Type} [DecidableEq α]

/-- `find_longest_match` guarded by its `debug_assert!`s. -/
def find_longest_matchChecked (shorter longer : List α)
    (low1 high1 low2 high2 : Nat) : Option MatchingStreak :=
  if low1 ≤ high1 ∧ low2 ≤ high2 ∧ high1 ≤ shorter.length
      ∧ high2 ≤ longer.length ∧ high1 - low1 ≤ high2 - low2 then
    some (find_longest_match shorter longer low1 high1 low2 high2)
  else none

/-- The work-queue loop with the assertion-checked matcher (fueled like
`gmbCollectF`; the canonical fuel suffices because the loop body agrees
with the unchecked one wherever the assertions pass). -/
def gmbCollectCheckedF (shorter longer : List α) :
    Nat → List Range4 → List Block → Option (List Block)
  | 0, _, acc => some acc
  | _ + 1, [], acc => some acc
  | fuel + 1, (low1, high1, low2, high2) :: rest, acc =>
    match find_longest_matchChecked shorter longer low1 high1 low2 high2 with
    | none => none
    | some m =>
      if m.size = 0 then gmbCollectCheckedF shorter longer fuel rest acc
      else
        gmbCollectCheckedF shorter longer fuel
          (gmbPushes m low1 high1 low2 high2 ++ rest)
          ((m.idx1, m.idx2, m.size) :: acc)

/-- The assertion-checked work-queue loop at its canonical fuel. -/
def gmbCollectChecked (shorter longer : List α) (q : List Range4)
    (acc : List Block) : Option (List Block) :=
  gmbCollectCheckedF shorter longer (queueWeight q) q acc

/-- `get_matching_blocks` with the assertion-checked core. -/
def get_matching_blocksChecked (a b : List α) : Option (List Block) :=
  if a.length ≤ b.length then
    (gmbCollectChecked a b [(0, a.length, 0, b.length)] []).map (fun raw =>
      collapseAdjacent (0, 0, 0) (List.insertionSort blockLe raw)
        ++ [(a.length, b.length, 0)])
  else
    (gmbCollectChecked b a [(0, b.length, 0, a.length)] []).map (fun raw =>
      (collapseAdjacent (0, 0, 0) (List.insertionSort blockLe raw)
          ++ [(b.length, a.length, 0)]).map
        (fun (x : Block) => (x.2.1, x.1, x.2.2)))

/-- `simple_ratio` with the assertion-checked matcher. -/
def simple_ratioChecked (a b : List α) : Option Nat :=
  (get_matching_blocksChecked a b).map (fun blocks =>
    if a.length + b.length ≠ 0 then
      pctRound (sumSizes blocks) (a.length + b.length)
    else 100)

end primitives

/-! ## Helper lemmas about degenerate inputs -/

theorem isEmpty_false_of_ne {p : Str} (h : p ≠ []) : p.isEmpty = false := by
  cases p with
  | nil => exact absurd rfl h
  | cons c cs => rfl

namespace compat

theorem ratio_full_nil {p : Str} (n : Str → Str) (h : p ≠ []) :
    ratio_full [] p n = 0 ∧ ratio_full p [] n = 0 := by
  unfold ratio_full
  rw [if_neg (Ne.symm h), if_neg h, if_pos, if_pos]
  · simp
  · rw [isEmpty_false_of_ne h]
    simp
  · rw [isEmpty_false_of_ne h]
    simp

theorem partial_ratio_full_nil {p : Str} (n : Str → Str) (h : p ≠ []) :
    partial_ratio_full [] p n = 0 ∧ partial_ratio_full p [] n = 0 := by
  unfold partial_ratio_full
  rw [if_neg (Ne.symm h), if_neg h, if_pos, if_pos]
  · simp
  · rw [isEmpty_false_of_ne h]
    simp
  · rw [isEmpty_false_of_ne h]
    simp

theorem token_set_nil {p : Str} (pf fa fp : Bool) (h : p ≠ []) :
    token_set [] p pf fa fp = 0 ∧ token_set p [] pf fa fp = 0 := by
  unfold token_set
  rw [if_neg (Ne.symm h), if_neg h, if_pos, if_pos]
  · simp
  · rw [isEmpty_false_of_ne h]
    simp
  · rw [isEmpty_false_of_ne h]
    simp

/-- `wratioCore` on an empty-vs-nonempty pair is 0: every candidate
score short-circuits to 0 through its own trivial check. -/
theorem wratioCore_nil {p : Str} (h : p ≠ []) :
    wratioCore [] p = 0 ∧ wratioCore p [] = 0 := by
  have h1 := ratio_full_nil passthroughNormalizer h
  have h2 := partial_ratio_full_nil passthroughNormalizer h
  have h3 := token_set_nil true true false h
  constructor
  · unfold wratioCore
    simp only [ratio, partial_ratio, partial_token_sort_ratio,
      partial_token_set_ratio, h1.1, h2.1, h3.1, List.length_nil,
      lenRatioLt15, Nat.zero_mul, Nat.min_def, Nat.max_def]
    simp [foldMax1000, token_sort_ratio, token_set_ratio, h1.1, h3.1]
  · unfold wratioCore
    simp only [ratio, partial_ratio, partial_token_sort_ratio,
      partial_token_set_ratio, h1.2, h2.2, h3.2, List.length_nil,
      lenRatioLt15, Nat.zero_mul, Nat.min_def, Nat.max_def]
    simp [foldMax1000, token_sort_ratio, token_set_ratio, h1.2, h3.2]

end compat

/-- The sum of block sizes is unchanged by swapping the two start
indices (the `flipped` remap of `get_matching_blocks`). -/
theorem sumSizes_map_swap (l : List primitives.Block) :
    primitives.sumSizes
        (l.map (fun (x : primitives.Block) => (x.2.1, x.1, x.2.2)))
      = primitives.sumSizes l := by
  induction l with
  | nil => rfl
  | cons b rest ih => simp [primitives.sumSizes] at ih ⊢; omega

/-- For sequences of different lengths both argument orders of
`get_matching_blocks` run the same core on `(shorter, longer)`, so the
total matched size agrees. -/
theorem sumSizes_gmb_comm {α : Type} [DecidableEq α] (a b : List α)
    (h : a.length ≠ b.length) :
    primitives.sumSizes (primitives.get_matching_blocks a b)
      = primitives.sumSizes (primitives.get_matching_blocks b a) := by
  unfold primitives.get_matching_blocks
  rcases Nat.lt_or_ge a.length b.length with hlt | hge
  · rw [if_pos hlt.le, if_neg (by omega)]
    exact (sumSizes_map_swap _).symm
  · have hlt : b.length < a.length := by omega
    rw [if_neg (by omega), if_pos hlt.le]
    exact sumSizes_map_swap _

namespace primitives

/-- If the start-scan at size `s` found nothing, no common run of
length `s` exists inside the windows. -/
theorem no_run_of_flmStart_none {α : Type} [DecidableEq α]
    {seq1 seq2 : List α} {lo1 hi1 lo2 hi2 s : Nat}
    (hs1 : 1 ≤ s) (hwin : hi1 - lo1 ≤ hi2 - lo2)
    (hnone : flmStart seq1 (sliceLen seq2 lo2 (hi2 - lo2)) lo1 s (hi2 - lo2)
      0 ((hi1 - lo1) - s + 1) = none) :
    ∀ i j, lo1 ≤ i → i + s ≤ hi1 → lo2 ≤ j → j + s ≤ hi2 →
      sliceLen seq1 i s ≠ sliceLen seq2 j s := by
  intro i j hi his hj hjs heq
  have ht := flmStart_eq_none hnone (i - lo1) (by omega) (by omega)
  have hw := flmWindow_eq_none ht (j - lo2) (by omega) (by omega)
  apply hw
  rw [sliceLen_sliceLen (by omega : (j - lo2) + s ≤ hi2 - lo2)]
  rw [show lo2 + (j - lo2) = j by omega, show lo1 + (i - lo1) = i by omega]
  exact heq.symm

end primitives

/-! ## Disjointness invariants of `get_matching_blocks` (for C3) -/

namespace primitives

/-- The rectangular extent of a block: `(i, i+k, j, j+k)`. -/
def bExt (b : Block) : Range4 := (b.1, b.1 + b.2.2, b.2.1, b.2.1 + b.2.2)

/-- Extent `x` lies entirely (weakly) before extent `y` in both
dimensions. -/
def SepE (x y : Range4) : Prop := x.2.1 ≤ y.1 ∧ x.2.2.2 ≤ y.2.2.1

/-- Two extents are ordered-disjoint one way or the other. -/
def ConE (x y : Range4) : Prop := SepE x y ∨ SepE y x

theorem ConE_symm : Symmetric ConE := fun _ _ h => h.symm

/-- Extent `e` lies inside extent `r`. -/
def Within (e r : Range4) : Prop :=
  r.1 ≤ e.1 ∧ e.2.1 ≤ r.2.1 ∧ r.2.2.1 ≤ e.2.2.1 ∧ e.2.2.2 ≤ r.2.2.2

theorem ConE_of_within {e r x : Range4} (hw : Within e r) (h : ConE r x) :
    ConE e x := by
  obtain ⟨h1, h2, h3, h4⟩ := hw
  rcases h with ⟨ha, hb⟩ | ⟨ha, hb⟩
  · exact Or.inl ⟨Nat.le_trans h2 ha, Nat.le_trans h4 hb⟩
  · exact Or.inr ⟨Nat.le_trans ha h1, Nat.le_trans hb h3⟩

/-- A range (or extent) is well-formed and within the two lengths. -/
def BoundsOK (L1 L2 : Nat) (e : Range4) : Prop :=
  e.1 ≤ e.2.1 ∧ e.2.1 ≤ L1 ∧ e.2.2.1 ≤ e.2.2.2 ∧ e.2.2.2 ≤ L2

/-- Block `x` lies entirely (weakly) before block `y` in both
sequences: the non-overlap relation on matching blocks. -/
def SepB (x y : Block) : Prop :=
  x.1 + x.2.2 ≤ y.1 ∧ x.2.1 + x.2.2 ≤ y.2.1

theorem mem_gmbPushes {m : MatchingStreak} {l1 h1 l2 h2 : Nat} {r : Range4}
    (h : r ∈ gmbPushes m l1 h1 l2 h2) :
    r = (m.idx1 + m.size, h1, m.idx2 + m.size, h2) ∨
      r = (l1, m.idx1, l2, m.idx2) := by
  unfold gmbPushes at h
  split at h <;> split at h <;> simp at h <;> tauto

theorem pairwise_conE_gmbPushes (m : MatchingStreak) (l1 h1 l2 h2 : Nat) :
    List.Pairwise ConE (gmbPushes m l1 h1 l2 h2) := by
  unfold gmbPushes
  split <;> split
  · refine List.pairwise_cons.mpr ⟨?_, List.pairwise_singleton _ _⟩
    intro y hy
    rcases List.mem_singleton.mp hy with rfl
    exact Or.inr ⟨Nat.le_add_right _ _, Nat.le_add_right _ _⟩
  · exact List.pairwise_singleton _ _
  · exact List.pairwise_singleton _ _
  · exact List.Pairwise.nil

/-- The central invariant of the work-queue loop: if the pending
ranges and already-collected block extents are pairwise
ordered-disjoint and in bounds, so are the extents of all blocks the
loop eventually collects. -/
theorem gmbCollect_invariant {α : Type} [DecidableEq α] (s l : List α) :
    ∀ (q : List Range4) (acc : List Block),
      (∀ r ∈ q, BoundsOK s.length l.length r) →
      (∀ b ∈ acc, 1 ≤ b.2.2 ∧ BoundsOK s.length l.length (bExt b)) →
      List.Pairwise ConE (q ++ acc.map bExt) →
      (∀ b ∈ gmbCollect s l q acc,
        1 ≤ b.2.2 ∧ BoundsOK s.length l.length (bExt b)) ∧
      List.Pairwise ConE ((gmbCollect s l q acc).map bExt) := by
  suffices h : ∀ (n : Nat) (q : List Range4) (acc : List Block),
      queueWeight q ≤ n →
      (∀ r ∈ q, BoundsOK s.length l.length r) →
      (∀ b ∈ acc, 1 ≤ b.2.2 ∧ BoundsOK s.length l.length (bExt b)) →
      List.Pairwise ConE (q ++ acc.map bExt) →
      (∀ b ∈ gmbCollect s l q acc,
        1 ≤ b.2.2 ∧ BoundsOK s.length l.length (bExt b)) ∧
      List.Pairwise ConE ((gmbCollect s l q acc).map bExt) by
    intro q acc hq hacc hcon
    exact h (queueWeight q) q acc (Nat.le_refl _) hq hacc hcon
  intro n
  induction n with
  | zero =>
    intro q acc hw hq hacc hcon
    have hq0 : q = [] := by
      cases q with
      | nil => rfl
      | cons r rest =>
        exfalso
        simp only [queueWeight, List.map_cons, List.sum_cons,
          rangeWeight] at hw
        omega
    subst hq0
    rw [gmbCollect_nil]
    exact ⟨hacc, List.nil_append (acc.map bExt) ▸ hcon⟩
  | succ n ih =>
    intro q acc hw hq hacc hcon
    cases q with
    | nil =>
      rw [gmbCollect_nil]
      exact ⟨hacc, List.nil_append (acc.map bExt) ▸ hcon⟩
    | cons r rest =>
      obtain ⟨l1, h1, l2, h2⟩ := r
      have hwr : 0 < rangeWeight (l1, h1, l2, h2) := by
        simp [rangeWeight]
      have hwq : queueWeight ((l1, h1, l2, h2) :: rest)
          = rangeWeight (l1, h1, l2, h2) + queueWeight rest := by
        simp [queueWeight]
      rw [gmbCollect_cons]
      by_cases hm : (find_longest_match s l l1 h1 l2 h2).size = 0
      · rw [if_pos hm]
        have hcon' : List.Pairwise ConE (rest ++ acc.map bExt) := by
          rw [List.cons_append] at hcon
          exact hcon.of_cons
        exact ih rest acc (by omega)
          (fun r hr => hq r (List.mem_cons_of_mem _ hr)) hacc hcon'
      · rw [if_neg hm]
        have hqhead := hq (l1, h1, l2, h2) (List.mem_cons_self _ _)
        have hrOK1 : l1 ≤ h1 := hqhead.1
        have hrOK2 : h1 ≤ s.length := hqhead.2.1
        have hrOK3 : l2 ≤ h2 := hqhead.2.2.1
        have hrOK4 : h2 ≤ l.length := hqhead.2.2.2
        obtain ⟨hms, hmi1, hmik, hmi2, hmjk, -⟩ :=
          primitives.find_longest_match_bounds hrOK1 hrOK2 hrOK3 hrOK4 hm
        rw [List.cons_append, List.pairwise_cons] at hcon
        obtain ⟨hr_all, htail⟩ := hcon
        set m := find_longest_match s l l1 h1 l2 h2 with hmdef
        have hWafter : Within (m.idx1 + m.size, h1, m.idx2 + m.size, h2)
            (l1, h1, l2, h2) := by
          dsimp only [Within]
          omega
        have hWbefore : Within (l1, m.idx1, l2, m.idx2) (l1, h1, l2, h2) := by
          dsimp only [Within]
          omega
        have hWblk : Within (bExt (m.idx1, m.idx2, m.size))
            (l1, h1, l2, h2) := by
          dsimp only [Within, bExt]
          omega
        have hpushW : ∀ r' ∈ gmbPushes m l1 h1 l2 h2,
            Within r' (l1, h1, l2, h2) := by
          intro r' hr'
          rcases mem_gmbPushes hr' with rfl | rfl
          · exact hWafter
          · exact hWbefore
        refine ih _ _ ?_ ?_ ?_ ?_
        · have hlt := queueWeight_step_lt (s := s) (l := l) rest hm
          rw [← hmdef] at hlt
          omega
        · intro r' hr'
          rcases List.mem_append.mp hr' with hr' | hr'
          · rcases mem_gmbPushes hr' with rfl | rfl
            · dsimp only [BoundsOK]
              omega
            · dsimp only [BoundsOK]
              omega
          · exact hq r' (List.mem_cons_of_mem _ hr')
        · intro b hb
          rcases List.mem_cons.mp hb with rfl | hb
          · refine ⟨hms, ?_⟩
            dsimp only [BoundsOK, bExt]
            omega
          · exact hacc b hb
        · -- reassemble the pairwise structure
          have hperm : (gmbPushes m l1 h1 l2 h2 ++ rest
              ++ ((m.idx1, m.idx2, m.size) :: acc).map bExt).Perm
              ((gmbPushes m l1 h1 l2 h2 ++ [bExt (m.idx1, m.idx2, m.size)])
                ++ (rest ++ acc.map bExt)) := by
            rw [List.map_cons, List.append_assoc, List.append_assoc]
            exact List.Perm.append_left _ List.perm_middle
          refine (hperm.pairwise_iff (fun h => ConE_symm h)).mpr ?_
          rw [List.pairwise_append]
          refine ⟨?_, htail, ?_⟩
          · -- the freshly pushed ranges and block are chain-separated
            rw [List.pairwise_append]
            refine ⟨pairwise_conE_gmbPushes m l1 h1 l2 h2,
              List.pairwise_singleton _ _, ?_⟩
            intro x hx y hy
            rcases List.mem_singleton.mp hy with rfl
            rcases mem_gmbPushes hx with rfl | rfl
            · exact Or.inr ⟨Nat.le_refl _, Nat.le_refl _⟩
            · exact Or.inl ⟨Nat.le_refl _, Nat.le_refl _⟩
          · -- everything fresh is inside the popped range, hence
            -- ordered-disjoint from everything older
            intro x hx y hy
            rcases List.mem_append.mp hx with hx | hx
            · exact ConE_of_within (hpushW x hx) (hr_all y hy)
            · rcases List.mem_singleton.mp hx with rfl
              exact ConE_of_within hWblk (hr_all y hy)

/-- Strict ascending order of blocks in both start coordinates. -/
def StrictInc (x y : Block) : Prop := x.1 < y.1 ∧ x.2.1 < y.2.1

/-- On a lexicographically sorted list of pairwise ordered-disjoint
nonempty blocks, the sort order coincides with the disjointness
order. -/
theorem pairwise_sepB_of_sorted {l : List Block}
    (hsort : List.Pairwise blockLe l)
    (hcon : List.Pairwise ConE (l.map bExt))
    (hk : ∀ b ∈ l, 1 ≤ b.2.2) :
    List.Pairwise SepB l := by
  rw [List.pairwise_map] at hcon
  refine (hsort.and hcon).imp_of_mem ?_
  intro x y hx hy hxy
  obtain ⟨hle, hcc⟩ := hxy
  rcases hcc with h | h
  · exact ⟨h.1, h.2⟩
  · exfalso
    have hky := hk y hy
    have h1 : y.1 + y.2.2 ≤ x.1 := h.1
    have h2 : y.2.1 + y.2.2 ≤ x.2.1 := h.2
    unfold blockLe at hle
    omega

/-- Behaviour of the adjacent-block collapsing loop on a separated,
in-bounds input: the output stays separated and in bounds, every block
is nonempty, and all outputs start no earlier than the running
block. -/
theorem collapseAdjacent_spec (L1 L2 : Nat) :
    ∀ (l : List Block) (st : Block),
      List.Pairwise SepB l →
      (∀ b ∈ l, SepB st b) →
      (∀ b ∈ l, 1 ≤ b.2.2 ∧ b.1 + b.2.2 ≤ L1 ∧ b.2.1 + b.2.2 ≤ L2) →
      st.1 + st.2.2 ≤ L1 → st.2.1 + st.2.2 ≤ L2 →
      List.Pairwise SepB (collapseAdjacent st l) ∧
      (∀ e ∈ collapseAdjacent st l,
        1 ≤ e.2.2 ∧ e.1 + e.2.2 ≤ L1 ∧ e.2.1 + e.2.2 ≤ L2 ∧
        st.1 ≤ e.1 ∧ st.2.1 ≤ e.2.1) := by
  intro l
  induction l with
  | nil =>
    intro st _ _ _ hst1 hst2
    obtain ⟨i1, j1, k1⟩ := st
    simp only [collapseAdjacent]
    by_cases hk : k1 ≠ 0
    · rw [if_pos hk]
      refine ⟨List.pairwise_singleton _ _, ?_⟩
      intro e he
      rcases List.mem_singleton.mp he with rfl
      exact ⟨Nat.one_le_iff_ne_zero.mpr hk, hst1, hst2,
        Nat.le_refl _, Nat.le_refl _⟩
    · rw [if_neg hk]
      exact ⟨List.Pairwise.nil, fun e he => absurd he (List.not_mem_nil e)⟩
  | cons b rest ih =>
    intro st hl hstb hbnd hst1 hst2
    obtain ⟨i1, j1, k1⟩ := st
    obtain ⟨i2, j2, k2⟩ := b
    rw [List.pairwise_cons] at hl
    obtain ⟨hb_rest, hrest⟩ := hl
    dsimp only at hst1 hst2
    have hbb := hbnd (i2, j2, k2) (List.mem_cons_self _ _)
    dsimp only at hbb
    have hsthead := hstb (i2, j2, k2) (List.mem_cons_self _ _)
    dsimp only [SepB] at hsthead
    have hbnd' : ∀ c ∈ rest, 1 ≤ c.2.2 ∧ c.1 + c.2.2 ≤ L1 ∧
        c.2.1 + c.2.2 ≤ L2 :=
      fun c hc => hbnd c (List.mem_cons_of_mem _ hc)
    simp only [collapseAdjacent]
    by_cases hadj : i1 + k1 = i2 ∧ j1 + k1 = j2
    · rw [if_pos hadj]
      have hsep' : ∀ c ∈ rest, SepB (i1, j1, k1 + k2) c := by
        intro c hc
        have hcc := hb_rest c hc
        dsimp only [SepB] at hcc ⊢
        omega
      exact ih (i1, j1, k1 + k2) hrest hsep' hbnd'
        (by dsimp only; omega) (by dsimp only; omega)
    · rw [if_neg hadj]
      obtain ⟨P, D⟩ := ih (i2, j2, k2) hrest hb_rest hbnd' hbb.2.1 hbb.2.2
      by_cases hk : k1 ≠ 0
      · rw [if_pos hk]
        refine ⟨List.pairwise_cons.mpr ⟨?_, P⟩, ?_⟩
        · intro e he
          have hd := D e he
          dsimp only at hd
          dsimp only [SepB]
          omega
        · intro e he
          rcases List.mem_cons.mp he with rfl | he
          · exact ⟨Nat.one_le_iff_ne_zero.mpr hk, hst1, hst2,
              Nat.le_refl _, Nat.le_refl _⟩
          · have hd := D e he
            dsimp only at hd
            refine ⟨hd.1, hd.2.1, hd.2.2.1, by omega, by omega⟩
      · rw [if_neg hk]
        refine ⟨P, ?_⟩
        intro e he
        have hd := D e he
        dsimp only at hd
        refine ⟨hd.1, hd.2.1, hd.2.2.1, by omega, by omega⟩

/-- The structure of `gmbCore`: a front of nonempty, in-bounds blocks
followed by the sentinel, with the whole list pairwise separated and
strictly ascending in both start coordinates. -/
theorem gmbCore_props {α : Type} [DecidableEq α] (s l : List α) :
    ∃ front, gmbCore s l = front ++ [(s.length, l.length, 0)] ∧
      (∀ x ∈ front, 1 ≤ x.2.2 ∧ x.1 + x.2.2 ≤ s.length ∧
        x.2.1 + x.2.2 ≤ l.length) ∧
      List.Pairwise SepB (gmbCore s l) ∧
      List.Pairwise StrictInc (gmbCore s l) := by
  have hinit1 : ∀ r ∈ [((0 : Nat), s.length, (0 : Nat), l.length)],
      BoundsOK s.length l.length r := by
    intro r hr
    rcases List.mem_singleton.mp hr with rfl
    exact ⟨Nat.zero_le _, Nat.le_refl _, Nat.zero_le _, Nat.le_refl _⟩
  obtain ⟨hmem, hpair⟩ := gmbCollect_invariant s l
    [(0, s.length, 0, l.length)] [] hinit1
    (fun b hb => absurd hb (List.not_mem_nil b))
    (by rw [List.map_nil, List.append_nil]; exact List.pairwise_singleton _ _)
  have hperm : (List.insertionSort blockLe
      (gmbCollect s l [(0, s.length, 0, l.length)] [])).Perm
      (gmbCollect s l [(0, s.length, 0, l.length)] []) :=
    List.perm_insertionSort blockLe _
  have hsort : List.Pairwise blockLe (List.insertionSort blockLe
      (gmbCollect s l [(0, s.length, 0, l.length)] [])) :=
    List.sorted_insertionSort blockLe _
  have hmem' : ∀ b ∈ List.insertionSort blockLe
      (gmbCollect s l [(0, s.length, 0, l.length)] []),
      1 ≤ b.2.2 ∧ BoundsOK s.length l.length (bExt b) :=
    fun b hb => hmem b (hperm.mem_iff.mp hb)
  have hcon' : List.Pairwise ConE ((List.insertionSort blockLe
      (gmbCollect s l [(0, s.length, 0, l.length)] [])).map bExt) :=
    ((hperm.map bExt).pairwise_iff (fun h => ConE_symm h)).mpr hpair
  have hsep : List.Pairwise SepB (List.insertionSort blockLe
      (gmbCollect s l [(0, s.length, 0, l.length)] [])) :=
    pairwise_sepB_of_sorted hsort hcon' (fun b hb => (hmem' b hb).1)
  have hbnd : ∀ b ∈ List.insertionSort blockLe
      (gmbCollect s l [(0, s.length, 0, l.length)] []),
      1 ≤ b.2.2 ∧ b.1 + b.2.2 ≤ s.length ∧ b.2.1 + b.2.2 ≤ l.length := by
    intro b hb
    obtain ⟨h1, h2⟩ := hmem' b hb
    dsimp only [BoundsOK, bExt] at h2
    exact ⟨h1, h2.2.1, h2.2.2.2⟩
  obtain ⟨hcp, hcd⟩ := collapseAdjacent_spec s.length l.length
    (List.insertionSort blockLe
      (gmbCollect s l [(0, s.length, 0, l.length)] []))
    (0, 0, 0) hsep (fun b _ => ⟨Nat.zero_le _, Nat.zero_le _⟩) hbnd
    (Nat.zero_le _) (Nat.zero_le _)
  refine ⟨collapseAdjacent (0, 0, 0) (List.insertionSort blockLe
      (gmbCollect s l [(0, s.length, 0, l.length)] [])), rfl, ?_, ?_, ?_⟩
  · exact fun x hx => ⟨(hcd x hx).1, (hcd x hx).2.1, (hcd x hx).2.2.1⟩
  · show List.Pairwise SepB (_ ++ [(s.length, l.length, 0)])
    rw [List.pairwise_append]
    refine ⟨hcp, List.pairwise_singleton _ _, ?_⟩
    intro x hx y hy
    rcases List.mem_singleton.mp hy with rfl
    have hd := hcd x hx
    dsimp only at hd
    dsimp only [SepB]
    omega
  · show List.Pairwise StrictInc (_ ++ [(s.length, l.length, 0)])
    rw [List.pairwise_append]
    refine ⟨?_, List.pairwise_singleton _ _, ?_⟩
    · refine hcp.imp_of_mem ?_
      intro x y hx hy hxy
      have hd := hcd x hx
      dsimp only at hd
      dsimp only [SepB] at hxy
      dsimp only [StrictInc]
      omega
    · intro x hx y hy
      rcases List.mem_singleton.mp hy with rfl
      have hd := hcd x hx
      dsimp only at hd
      dsimp only [StrictInc]
      omega

theorem sumSizes_append (l1 l2 : List Block) :
    sumSizes (l1 ++ l2) = sumSizes l1 + sumSizes l2 := by
  simp [sumSizes]

/-- The sizes of a separated chain of blocks lying after `base` and
inside `[0, L1)` sum to at most `L1 - base`. -/
theorem sumSizes_le_of_sep (proj : Block → Nat) (L1 : Nat) :
    ∀ (L : List Block) (base : Nat),
      List.Pairwise (fun x y => proj x + x.2.2 ≤ proj y) L →
      (∀ x ∈ L, proj x + x.2.2 ≤ L1) →
      (∀ x ∈ L, base ≤ proj x) →
      sumSizes L ≤ L1 - base := by
  intro L
  induction L with
  | nil =>
    intro base _ _ _
    simp [sumSizes]
  | cons x rest ih =>
    intro base hp hb hba
    rw [List.pairwise_cons] at hp
    have h1 := hb x (List.mem_cons_self _ _)
    have h2 := hba x (List.mem_cons_self _ _)
    have ihr := ih (proj x + x.2.2) hp.2
      (fun y hy => hb y (List.mem_cons_of_mem _ hy)) (fun y hy => hp.1 y hy)
    have hsum : sumSizes (x :: rest) = x.2.2 + sumSizes rest := by
      simp [sumSizes]
    omega

theorem sumSizes_gmbCore_le {α : Type} [DecidableEq α] (s l : List α) :
    sumSizes (gmbCore s l) ≤ s.length ∧
      sumSizes (gmbCore s l) ≤ l.length := by
  obtain ⟨front, heq, hfr, hsep, -⟩ := gmbCore_props s l
  rw [heq] at hsep ⊢
  rw [List.pairwise_append] at hsep
  have hs1 : sumSizes (front ++ [(s.length, l.length, 0)])
      = sumSizes front := by
    rw [sumSizes_append]
    simp [sumSizes]
  rw [hs1]
  constructor
  · have := sumSizes_le_of_sep (fun x => x.1) s.length front 0
      (hsep.1.imp (fun h => h.1)) (fun x hx => (hfr x hx).2.1)
      (fun x _ => Nat.zero_le _)
    omega
  · have := sumSizes_le_of_sep (fun x => x.2.1) l.length front 0
      (hsep.1.imp (fun h => h.2)) (fun x hx => (hfr x hx).2.2)
      (fun x _ => Nat.zero_le _)
    omega

/-- Matched runs cannot cover more than either sequence. -/
theorem sumSizes_gmb_le {α : Type} [DecidableEq α] (a b : List α) :
    2 * sumSizes (get_matching_blocks a b) ≤ a.length + b.length := by
  unfold get_matching_blocks
  by_cases hab : a.length ≤ b.length
  · rw [if_pos hab]
    have := sumSizes_gmbCore_le a b
    omega
  · rw [if_neg hab]
    rw [sumSizes_map_swap]
    have := sumSizes_gmbCore_le b a
    omega

theorem simple_ratio_le_100 {α : Type} [DecidableEq α] (a b : List α) :
    simple_ratio a b ≤ 100 := by
  unfold simple_ratio
  by_cases hs : a.length + b.length ≠ 0
  · rw [if_pos hs]
    have hm := sumSizes_gmb_le a b
    unfold pctRound
    have h2s : 0 < 2 * (a.length + b.length) := by omega
    have hlt : (400 * sumSizes (get_matching_blocks a b)
          + (a.length + b.length)) / (2 * (a.length + b.length)) < 101 :=
      (Nat.div_lt_iff_lt_mul h2s).mpr (by omega)
    omega
  · rw [if_neg hs]

end primitives

/-! ## The candidate-window maximum of `partial_ratio` (for C6) -/

namespace compat

/-- The candidate score of one matching block in `partial_ratio_full`:
`simple_ratio` of the shorter string against the window of `longer`
anchored at the block. -/
def candScore (shorter longer : Str) : primitives.Block → Nat
  | (i, j, _) =>
    let long_start := if j > i then j - i else 0
    let long_end := min (long_start + shorter.length) longer.length
    primitives.simple_ratio shorter
      (sliceLen longer long_start (long_end - long_start))

theorem partialLoop_cons (shorter longer : Str) (i j k : Nat)
    (rest : List primitives.Block) (mx : Nat) :
    partialLoop shorter longer ((i, j, k) :: rest) mx
      = if candScore shorter longer (i, j, k) > 99 then 100
        else if candScore shorter longer (i, j, k) > mx then
          partialLoop shorter longer rest (candScore shorter longer (i, j, k))
        else partialLoop shorter longer rest mx := rfl

theorem candScore_le_100 (shorter longer : Str) (bl : primitives.Block) :
    candScore shorter longer bl ≤ 100 := by
  obtain ⟨i, j, k⟩ := bl
  exact primitives.simple_ratio_le_100 _ _

theorem le_foldr_max (f : primitives.Block → Nat) :
    ∀ (l : List primitives.Block) (mx : Nat),
      mx ≤ l.foldr (fun bl acc => max (f bl) acc) mx := by
  intro l
  induction l with
  | nil =>
    intro mx
    exact Nat.le_refl _
  | cons b rest ih =>
    intro mx
    exact Nat.le_trans (ih mx) (Nat.le_max_right _ _)

theorem foldr_max_le (f : primitives.Block → Nat) (c : Nat)
    (hf : ∀ bl, f bl ≤ c) :
    ∀ (l : List primitives.Block) (mx : Nat), mx ≤ c →
      l.foldr (fun bl acc => max (f bl) acc) mx ≤ c := by
  intro l
  induction l with
  | nil =>
    intro mx h
    exact h
  | cons b rest ih =>
    intro mx h
    exact max_le (hf b) (ih mx h)

theorem foldr_max_absorb (f : primitives.Block → Nat) :
    ∀ (l : List primitives.Block) (x mx : Nat),
      l.foldr (fun bl acc => max (f bl) acc) (max x mx)
        = max x (l.foldr (fun bl acc => max (f bl) acc) mx) := by
  intro l
  induction l with
  | nil =>
    intro x mx
    rfl
  | cons b rest ih =>
    intro x mx
    simp only [List.foldr_cons, ih]
    exact max_left_comm _ _ _

/-- The candidate loop of `partial_ratio_full` computes the maximum
candidate score (the early return at `> 99` can only return the
maximum, every candidate being at most 100). -/
theorem partialLoop_eq_foldr (shorter longer : Str) :
    ∀ (blocks : List primitives.Block) (mx : Nat), mx ≤ 100 →
      partialLoop shorter longer blocks mx
        = blocks.foldr
            (fun bl acc => max (candScore shorter longer bl) acc) mx := by
  intro blocks
  induction blocks with
  | nil =>
    intro mx _
    rfl
  | cons bl rest ih =>
    intro mx hmx
    obtain ⟨i, j, k⟩ := bl
    rw [partialLoop_cons, List.foldr_cons]
    by_cases h99 : candScore shorter longer (i, j, k) > 99
    · rw [if_pos h99]
      have hle := candScore_le_100 shorter longer (i, j, k)
      have h100 : candScore shorter longer (i, j, k) = 100 := by omega
      have hfle : rest.foldr
          (fun bl acc => max (candScore shorter longer bl) acc) mx ≤ 100 :=
        foldr_max_le _ 100 (candScore_le_100 shorter longer) rest mx hmx
      rw [h100]
      exact (max_eq_left hfle).symm
    · rw [if_neg h99]
      by_cases hmx' : candScore shorter longer (i, j, k) > mx
      · rw [if_pos hmx']
        rw [ih _ (candScore_le_100 shorter longer (i, j, k))]
        calc rest.foldr (fun bl acc => max (candScore shorter longer bl) acc)
              (candScore shorter longer (i, j, k))
            = rest.foldr (fun bl acc => max (candScore shorter longer bl) acc)
              (max (candScore shorter longer (i, j, k)) mx) := by
              rw [max_eq_left (le_of_lt hmx')]
          _ = max (candScore shorter longer (i, j, k))
              (rest.foldr (fun bl acc => max (candScore shorter longer bl) acc)
                mx) := foldr_max_absorb _ rest _ mx
      · rw [if_neg hmx']
        rw [ih mx hmx]
        have hle' : candScore shorter longer (i, j, k)
            ≤ rest.foldr
              (fun bl acc => max (candScore shorter longer bl) acc) mx :=
          Nat.le_trans (by omega) (le_foldr_max _ rest mx)
        exact (max_eq_right hle').symm

/-- `specC6PartialFormula`: the candidate maximum as claim C6's words
describe it — over the NON-sentinel matching blocks only, `0` when
none exist.  This definition follows the claim's words, for comparison
with the source embedding `partial_ratio`. -/
def specC6PartialFormula (a b : Str) : Nat :=
  let shorter := if a.length ≤ b.length then a else b
  let longer := if a.length ≤ b.length then b else a
  partialLoop shorter longer
    ((primitives.get_matching_blocks shorter longer).filter
      (fun bl => bl.2.2 ≠ 0)) 0

end compat

/-! ## The claims -/

/-- C2 (confirmed): for windows `lo1 ≤ hi1 ≤ |seq1|`,
`lo2 ≤ hi2 ≤ |seq2|` with `hi1 - lo1 ≤ hi2 - lo2`,
`find_longest_match` returns a streak `(i, j, k)` inside the windows
with `seq1[i..i+k] = seq2[j..j+k]`, whose length is maximal among all
common contiguous runs in the windows; among maximal-length runs it has
the least `i`, and among those the least `j`; and when no run of
length ≥ 1 exists it returns `(lo1, lo2, 0)`. -/
theorem claim_C2 {α : Type} [DecidableEq α] (seq1 seq2 : List α)
    (lo1 hi1 lo2 hi2 : Nat)
    (hb1 : lo1 ≤ hi1) (hb2 : hi1 ≤ seq1.length) (hb3 : lo2 ≤ hi2)
    (hb4 : hi2 ≤ seq2.length) (hb5 : hi1 - lo1 ≤ hi2 - lo2) :
    (lo1 ≤ (primitives.find_longest_match seq1 seq2 lo1 hi1 lo2 hi2).idx1 ∧
      (primitives.find_longest_match seq1 seq2 lo1 hi1 lo2 hi2).idx1
          + (primitives.find_longest_match seq1 seq2 lo1 hi1 lo2 hi2).size
        ≤ hi1 ∧
      lo2 ≤ (primitives.find_longest_match seq1 seq2 lo1 hi1 lo2 hi2).idx2 ∧
      (primitives.find_longest_match seq1 seq2 lo1 hi1 lo2 hi2).idx2
          + (primitives.find_longest_match seq1 seq2 lo1 hi1 lo2 hi2).size
        ≤ hi2 ∧
      sliceLen seq1
          (primitives.find_longest_match seq1 seq2 lo1 hi1 lo2 hi2).idx1
          (primitives.find_longest_match seq1 seq2 lo1 hi1 lo2 hi2).size
        = sliceLen seq2
          (primitives.find_longest_match seq1 seq2 lo1 hi1 lo2 hi2).idx2
          (primitives.find_longest_match seq1 seq2 lo1 hi1 lo2 hi2).size) ∧
    (∀ i j k, lo1 ≤ i → i + k ≤ hi1 → lo2 ≤ j → j + k ≤ hi2 →
      sliceLen seq1 i k = sliceLen seq2 j k →
      k ≤ (primitives.find_longest_match seq1 seq2 lo1 hi1 lo2 hi2).size) ∧
    (∀ i j, lo1 ≤ i →
      i + (primitives.find_longest_match seq1 seq2 lo1 hi1 lo2 hi2).size
        ≤ hi1 →
      lo2 ≤ j →
      j + (primitives.find_longest_match seq1 seq2 lo1 hi1 lo2 hi2).size
        ≤ hi2 →
      sliceLen seq1 i
          (primitives.find_longest_match seq1 seq2 lo1 hi1 lo2 hi2).size
        = sliceLen seq2 j
          (primitives.find_longest_match seq1 seq2 lo1 hi1 lo2 hi2).size →
      0 < (primitives.find_longest_match seq1 seq2 lo1 hi1 lo2 hi2).size →
      (primitives.find_longest_match seq1 seq2 lo1 hi1 lo2 hi2).idx1 ≤ i ∧
        (i = (primitives.find_longest_match seq1 seq2 lo1 hi1 lo2 hi2).idx1 →
          (primitives.find_longest_match seq1 seq2 lo1 hi1 lo2 hi2).idx2
            ≤ j)) ∧
    ((¬ ∃ i j k, 0 < k ∧ lo1 ≤ i ∧ i + k ≤ hi1 ∧ lo2 ≤ j ∧ j + k ≤ hi2 ∧
        sliceLen seq1 i k = sliceLen seq2 j k) →
      primitives.find_longest_match seq1 seq2 lo1 hi1 lo2 hi2
        = ⟨lo1, lo2, 0⟩) := by
  rcases heqF : primitives.flmSize seq1 (sliceLen seq2 lo2 (hi2 - lo2)) lo1
      (hi1 - lo1) (hi2 - lo2) (hi1 - lo1) with - | ⟨sz, st, ws⟩
  · -- the search found nothing: the anchor is returned and no run exists
    have hr : primitives.find_longest_match seq1 seq2 lo1 hi1 lo2 hi2
        = ⟨lo1, lo2, 0⟩ := by
      unfold primitives.find_longest_match
      rw [heqF]
    have hnorun : ∀ i j k, 0 < k → lo1 ≤ i → i + k ≤ hi1 → lo2 ≤ j →
        j + k ≤ hi2 → sliceLen seq1 i k ≠ sliceLen seq2 j k := by
      intro i j k hk hi hik hj hjk
      exact primitives.no_run_of_flmStart_none hk hb5
        (primitives.flmSize_eq_none heqF k hk (by omega)) i j hi hik hj hjk
    rw [hr]
    dsimp only
    refine ⟨⟨Nat.le_refl _, by omega, Nat.le_refl _, by omega,
      by simp [sliceLen]⟩, ?_, ?_, fun _ => rfl⟩
    · intro i j k hi hik hj hjk heq
      rcases Nat.eq_zero_or_pos k with rfl | hk
      · exact Nat.le_refl _
      · exact absurd heq (hnorun i j k hk hi hik hj hjk)
    · intro i j hi hik hj hjk heq hpos
      omega
  · -- the search found `(sz, st, ws)`
    have hr : primitives.find_longest_match seq1 seq2 lo1 hi1 lo2 hi2
        = ⟨lo1 + st, lo2 + ws, sz⟩ := by
      unfold primitives.find_longest_match
      rw [heqF]
    obtain ⟨hsz1, hszlen, hstart, hrest⟩ := primitives.flmSize_eq_some heqF
    obtain ⟨-, hstlt, hwin, hstnone⟩ := primitives.flmStart_eq_some hstart
    obtain ⟨-, hwslt, -, hwnone⟩ := primitives.flmWindow_eq_some hwin
    simp only [Nat.zero_add] at hstlt hwslt
    have hB := primitives.find_longest_match_bounds
      (s := seq1) (l := seq2) hb1 hb2 hb3 hb4
      (by rw [hr]; dsimp only; omega)
    rw [hr] at hB
    dsimp only at hB
    obtain ⟨-, hBi, hBik, hBj, hBjk, hBslice⟩ := hB
    rw [hr]
    dsimp only
    refine ⟨⟨hBi, hBik, hBj, hBjk, hBslice⟩, ?_, ?_, ?_⟩
    · -- maximality of `sz`
      intro i j k hi hik hj hjk heq
      by_contra hgt
      push_neg at hgt
      have hk1 : 1 ≤ k := by omega
      have hnone := hrest k (by omega) (by omega)
      exact absurd heq
        (primitives.no_run_of_flmStart_none hk1 hb5 hnone i j hi hik hj hjk)
    · -- minimality of the start in `seq1`, then of the start in `seq2`
      intro i j hi hik hj hjk heq hpos
      constructor
      · by_contra hlt
        push_neg at hlt
        have hne := primitives.flmWindow_eq_none
          (hstnone (i - lo1) (by omega) (by omega)) (j - lo2)
          (by omega) (by omega)
        apply hne
        rw [primitives.sliceLen_sliceLen
            (by omega : (j - lo2) + sz ≤ hi2 - lo2),
          show lo2 + (j - lo2) = j by omega,
          show lo1 + (i - lo1) = i by omega]
        exact heq.symm
      · intro hieq
        by_contra hlt
        push_neg at hlt
        have hne := hwnone (j - lo2) (by omega) (by omega)
        apply hne
        rw [primitives.sliceLen_sliceLen
            (by omega : (j - lo2) + sz ≤ hi2 - lo2),
          show lo2 + (j - lo2) = j by omega, ← hieq]
        exact heq.symm
    · -- a match exists, so the no-run hypothesis is vacuous
      intro hno
      exact absurd ⟨lo1 + st, lo2 + ws, sz,
        by omega, hBi, hBik, hBj, hBjk, hBslice⟩ hno

/-- Witness for C2 at `seq1 = "ab"`, `seq2 = "xaby"` with the full
windows: the bounds hold and the returned streak is an in-window
common run. -/
theorem claim_C2_witness :
    ((0 : Nat) ≤ 2 ∧ (2 : Nat) ≤ "ab".toList.length ∧ (0 : Nat) ≤ 4 ∧
      (4 : Nat) ≤ "xaby".toList.length ∧ 2 - 0 ≤ 4 - 0) ∧
    (0 ≤ (primitives.find_longest_match "ab".toList "xaby".toList
        0 2 0 4).idx1 ∧
      (primitives.find_longest_match "ab".toList "xaby".toList
          0 2 0 4).idx1
        + (primitives.find_longest_match "ab".toList "xaby".toList
          0 2 0 4).size ≤ 2 ∧
      0 ≤ (primitives.find_longest_match "ab".toList "xaby".toList
        0 2 0 4).idx2 ∧
      (primitives.find_longest_match "ab".toList "xaby".toList
          0 2 0 4).idx2
        + (primitives.find_longest_match "ab".toList "xaby".toList
          0 2 0 4).size ≤ 4 ∧
      sliceLen "ab".toList
          (primitives.find_longest_match "ab".toList "xaby".toList
            0 2 0 4).idx1
          (primitives.find_longest_match "ab".toList "xaby".toList
            0 2 0 4).size
        = sliceLen "xaby".toList
          (primitives.find_longest_match "ab".toList "xaby".toList
            0 2 0 4).idx2
          (primitives.find_longest_match "ab".toList "xaby".toList
            0 2 0 4).size) :=
  ⟨⟨by decide, by decide, by decide, by decide, by decide⟩,
    (claim_C2 "ab".toList "xaby".toList 0 2 0 4 (by decide) (by decide)
      (by decide) (by decide) (by decide)).1⟩

/-- C3 (confirmed): `get_matching_blocks a b` is a front of blocks of
nonzero length lying inside both sequences, followed by exactly one
sentinel `(a.length, b.length, 0)` (hence the sentinel is its only
zero-length element); the whole list is pairwise non-overlapping in
both sequences (each block ends before the next begins, in both
coordinates) and strictly ascending in both start coordinates (hence
sorted by `(start-in-a, start-in-b)`). -/
theorem claim_C3 {α : Type} [DecidableEq α] (a b : List α) :
    ∃ front, primitives.get_matching_blocks a b
        = front ++ [(a.length, b.length, 0)] ∧
      (∀ x ∈ front, x.2.2 ≠ 0 ∧ x.1 + x.2.2 ≤ a.length ∧
        x.2.1 + x.2.2 ≤ b.length) ∧
      List.Pairwise primitives.SepB (primitives.get_matching_blocks a b) ∧
      List.Pairwise primitives.StrictInc
        (primitives.get_matching_blocks a b) := by
  by_cases hab : a.length ≤ b.length
  · rw [primitives.get_matching_blocks, if_pos hab]
    obtain ⟨front, heq, hfr, hsep, hinc⟩ := primitives.gmbCore_props a b
    refine ⟨front, heq, ?_, hsep, hinc⟩
    intro x hx
    have h := hfr x hx
    exact ⟨by omega, h.2.1, h.2.2⟩
  · rw [primitives.get_matching_blocks, if_neg hab]
    obtain ⟨front, heq, hfr, hsep, hinc⟩ := primitives.gmbCore_props b a
    refine ⟨front.map (fun x => (x.2.1, x.1, x.2.2)), ?_, ?_, ?_, ?_⟩
    · rw [heq, List.map_append]
      rfl
    · intro x hx
      rw [List.mem_map] at hx
      obtain ⟨y, hy, rfl⟩ := hx
      have h := hfr y hy
      dsimp only
      omega
    · refine List.pairwise_map.mpr (hsep.imp ?_)
      intro x y h
      dsimp only [primitives.SepB] at h ⊢
      omega
    · refine List.pairwise_map.mpr (hinc.imp ?_)
      intro x y h
      dsimp only [primitives.StrictInc] at h ⊢
      omega

/-- C6 (counterexample): at `("abb", "aazb")` (non-equal and
non-empty) `partial_ratio` is 67, but the claim's formula — the
candidate maximum over the non-sentinel blocks only — gives 40.  The
loop iterates over ALL blocks, and here the window anchored at the
sentinel block `(3, 4, 0)` decides the result: it is `"azb"`, scoring
`simple_ratio("abb", "azb") = 67`, while the two non-sentinel windows
`"aaz"` and `"zb"` score only 33 and 40. -/
theorem claim_C6_counterexample :
    compat.partial_ratio "abb".toList "aazb".toList = 67 ∧
      compat.specC6PartialFormula "abb".toList "aazb".toList = 40 :=
  ⟨by decide, by decide⟩

/-- C6 (amended): for non-equal inputs that are both empty or both
non-empty, `partial_ratio` equals the maximum candidate-window score
over ALL blocks returned by `get_matching_blocks(shorter, longer)`,
including the final sentinel block, starting from 0 (the `> 99` early
return cannot change the maximum, every candidate being at most
100). -/
theorem claim_C6_amended (a b : Str) (hne : a ≠ b)
    (hemp : a.isEmpty = b.isEmpty) :
    compat.partial_ratio a b
      = ((primitives.get_matching_blocks
            (if a.length ≤ b.length then a else b)
            (if a.length ≤ b.length then b else a)).foldr
          (fun bl acc => max (compat.candScore
              (if a.length ≤ b.length then a else b)
              (if a.length ≤ b.length then b else a) bl) acc) 0) := by
  unfold compat.partial_ratio compat.partial_ratio_full
  rw [if_neg hne, if_neg (fun h => h hemp)]
  exact compat.partialLoop_eq_foldr _ _ _ 0 (by omega)

/-- Witness for the amended C6 at `("ab", "ba")`: the hypotheses hold
and `partial_ratio` equals the candidate maximum over all blocks. -/
theorem claim_C6_witness :
    ("ab".toList ≠ "ba".toList) ∧
    ("ab".toList.isEmpty = "ba".toList.isEmpty) ∧
    compat.partial_ratio "ab".toList "ba".toList
      = ((primitives.get_matching_blocks
            (if "ab".toList.length ≤ "ba".toList.length then "ab".toList
              else "ba".toList)
            (if "ab".toList.length ≤ "ba".toList.length then "ba".toList
              else "ab".toList)).foldr
          (fun bl acc => max (compat.candScore
              (if "ab".toList.length ≤ "ba".toList.length then "ab".toList
                else "ba".toList)
              (if "ab".toList.length ≤ "ba".toList.length then "ba".toList
                else "ab".toList) bl) acc) 0) :=
  ⟨by decide, by decide,
    claim_C6_amended "ab".toList "ba".toList (by decide) (by decide)⟩

/-- C1 (counterexample): contrary to the claim that `wratio` with full
normalization returns 0 whenever either input normalizes to empty —
"in particular ... when both inputs are empty strings" — the code's
`check_trivial!` runs first and `wratio("", "", true, true)` is 100
(also asserted by the crate's own doc test). -/
theorem claim_C1_counterexample : compat.wratio [] [] true true = 100 := by
  decide

/-- C1 (amended): with full normalization, `wratio` returns 0 when
exactly one of the two inputs normalizes to empty and the raw inputs
are unequal; but when both raw inputs are non-empty, unequal, and both
normalize to empty it returns 100 (through the base ratio of two empty
strings), and on equal raw inputs — including two empty strings — the
raw-equality short-circuit returns 100 before any normalization. -/
theorem claim_C1_amended :
    (∀ s1 s2 : Str, s1 ≠ s2 →
      (compat.full_process s1 true = [] ∧ compat.full_process s2 true ≠ []) ∨
        (compat.full_process s1 true ≠ [] ∧ compat.full_process s2 true = []) →
      compat.wratio s1 s2 true true = 0) ∧
    (∀ s1 s2 : Str, s1 ≠ s2 → s1 ≠ [] → s2 ≠ [] →
      compat.full_process s1 true = [] → compat.full_process s2 true = [] →
      compat.wratio s1 s2 true true = 100) ∧
    (∀ s : Str, compat.wratio s s true true = 100) := by
  refine ⟨?_, ?_, ?_⟩
  · intro s1 s2 h12 hcase
    unfold compat.wratio
    rw [if_neg h12]
    by_cases hxor : s1.isEmpty ≠ s2.isEmpty
    · rw [if_pos hxor]
    · rw [if_neg hxor]
      show compat.wratioCore (compat.full_process s1 true)
        (compat.full_process s2 true) = 0
      rcases hcase with ⟨hp1, hp2⟩ | ⟨hp1, hp2⟩
      · rw [hp1]
        exact (compat.wratioCore_nil hp2).1
      · rw [hp2]
        exact (compat.wratioCore_nil hp1).2
  · intro s1 s2 h12 h1 h2 hp1 hp2
    unfold compat.wratio
    rw [if_neg h12,
      if_neg (by rw [isEmpty_false_of_ne h1, isEmpty_false_of_ne h2]; simp)]
    show compat.wratioCore (compat.full_process s1 true)
      (compat.full_process s2 true) = 100
    rw [hp1, hp2]
    decide
  · intro s
    unfold compat.wratio
    rw [if_pos rfl]

/-- C1 (witness): a concrete instance of the amended claim — `"."`
normalizes to empty against `"a"`, and `wratio` returns 0. -/
theorem claim_C1_witness : compat.wratio ['.'] ['a'] true true = 0 :=
  claim_C1_amended.1 ['.'] ['a'] (by decide) (Or.inl ⟨by decide, by decide⟩)

/-- C4 (counterexample): `ratio` is not commutative on equal-length
inputs: `ratio("abac", "acba") = 75` but `ratio("acba", "abac") = 50`
(the internal shorter/longer choice keeps the first argument as
`shorter` in both orders, and the tie-break-sensitive alignment finds
different total matches). -/
theorem claim_C4_counterexample :
    fuzz.ratio "abac".toList "acba".toList = 75 ∧
      fuzz.ratio "acba".toList "abac".toList = 50 := by
  constructor <;> decide

/-- C4 (amended): `ratio` is commutative whenever the two inputs have
different code-point lengths (both argument orders then align the same
`(shorter, longer)` pair); on equal-length inputs commutativity can
fail, as the counterexample shows. -/
theorem claim_C4_amended (a b : Str) (h : a.length ≠ b.length) :
    fuzz.ratio a b = fuzz.ratio b a := by
  have hab : a ≠ b := fun he => h (congrArg List.length he)
  have hba : b ≠ a := fun he => hab he.symm
  unfold fuzz.ratio
  rw [if_neg hab, if_neg hba]
  by_cases he : a.isEmpty ≠ b.isEmpty
  · rw [if_pos he, if_pos (Ne.symm he)]
  · rw [if_neg he, if_neg (fun hh => he (Ne.symm hh))]
    rw [sumSizes_gmb_comm a b h, Nat.add_comm a.length b.length]

/-- C4 (witness): a concrete instance of the amended claim at different
lengths. -/
theorem claim_C4_witness :
    "ab".toList.length ≠ "a".toList.length ∧
      fuzz.ratio "ab".toList "a".toList = fuzz.ratio "a".toList "ab".toList :=
  ⟨by decide, claim_C4_amended _ _ (by decide)⟩

/-- C5 (confirmed): `partial_ratio` is order-dependent on the
documented pair — 76 one way and 86 the other. -/
theorem claim_C5 :
    compat.partial_ratio "what about supercalifragilisticexpialidocious".toList
        "supercalifragilisticexpialidocious about what".toList = 76 ∧
      compat.partial_ratio
        "supercalifragilisticexpialidocious about what".toList
        "what about supercalifragilisticexpialidocious".toList = 86 := by
  constructor <;> decide

/-- C7 (confirmed): outside the trivial short-circuits, the
whole-string ratio is the rounded percentage
`100 * 2 * (total matched length) / (len1 + len2)` (rounding half away
from zero, which on these nonnegative values is round-half-up); two
empty sequences score 100; and `ratio("cd", "abcd") = 67`. -/
theorem claim_C7 :
    (∀ a b : Str, a ≠ b → a ≠ [] → b ≠ [] →
      fuzz.ratio a b = primitives.roundQ (100
        * (2 * (primitives.sumSizes (primitives.get_matching_blocks a b) : ℚ))
        / ((a.length : ℚ) + (b.length : ℚ)))) ∧
    fuzz.ratio [] [] = 100 ∧
    fuzz.ratio "cd".toList "abcd".toList = 67 := by
  refine ⟨?_, by decide, by decide⟩
  intro a b hab ha hb
  unfold fuzz.ratio
  rw [if_neg hab,
    if_neg (by rw [isEmpty_false_of_ne ha, isEmpty_false_of_ne hb]; simp),
    if_pos (by cases a with
      | nil => exact absurd rfl ha
      | cons c cs => simp),
    primitives.pctRound_eq_roundQ _ _ (by cases a with
      | nil => exact absurd rfl ha
      | cons c cs => simp)]
  push_cast
  ring_nf

/-- C7 (witness): a concrete instance of the universally quantified
part, at the documented pair `("cd", "abcd")`. -/
theorem claim_C7_witness :
    fuzz.ratio "cd".toList "abcd".toList = primitives.roundQ (100
      * (2 * (primitives.sumSizes
          (primitives.get_matching_blocks "cd".toList "abcd".toList) : ℚ))
      / (("cd".toList.length : ℚ) + ("abcd".toList.length : ℚ))) :=
  claim_C7.1 "cd".toList "abcd".toList (by decide) (by decide) (by decide)

theorem roundQ_div1000 (V : Nat) :
    primitives.roundQ ((V : ℚ) / 1000) = (V + 500) / 1000 := by
  unfold primitives.roundQ
  have key : (V : ℚ) / 1000 + 1 / 2 = ((2 * V + 1000 : ℕ) : ℚ)
      / ((2000 : ℕ) : ℚ) := by
    push_cast
    ring
  rw [key, Rat.floor_natCast_div_natCast, ← Int.natCast_div, Int.toNat_natCast]
  omega

theorem cast_mul_div1000 (n k : ℕ) :
    ((n * k : ℕ) : ℚ) / 1000 = (n : ℚ) * ((k : ℚ) / 1000) := by
  push_cast
  ring

/-- The `f64` maximum-then-round of three weighted candidates equals
the fixed-point computation. -/
theorem foldMax1000_three (a b c ka kb kc : ℕ) :
    compat.foldMax1000 [a * ka, b * kb, c * kc]
      = primitives.roundQ (max (max ((a : ℚ) * ((ka : ℚ) / 1000))
          ((b : ℚ) * ((kb : ℚ) / 1000))) ((c : ℚ) * ((kc : ℚ) / 1000))) := by
  have hfold : [a * ka, b * kb, c * kc].foldl max 0
      = max (max (a * ka) (b * kb)) (c * kc) := by
    simp [Nat.zero_max]
  unfold compat.foldMax1000
  rw [hfold, ← cast_mul_div1000, ← cast_mul_div1000, ← cast_mul_div1000,
    max_div_div_right (by norm_num), max_div_div_right (by norm_num),
    ← Nat.cast_max, ← Nat.cast_max, roundQ_div1000]

/-- The `f64` maximum-then-round of four weighted candidates equals the
fixed-point computation. -/
theorem foldMax1000_four (a b c d ka kb kc kd : ℕ) :
    compat.foldMax1000 [a * ka, b * kb, c * kc, d * kd]
      = primitives.roundQ (max (max (max ((a : ℚ) * ((ka : ℚ) / 1000))
          ((b : ℚ) * ((kb : ℚ) / 1000))) ((c : ℚ) * ((kc : ℚ) / 1000)))
          ((d : ℚ) * ((kd : ℚ) / 1000))) := by
  have hfold : [a * ka, b * kb, c * kc, d * kd].foldl max 0
      = max (max (max (a * ka) (b * kb)) (c * kc)) (d * kd) := by
    simp [Nat.zero_max]
  unfold compat.foldMax1000
  rw [hfold, ← cast_mul_div1000, ← cast_mul_div1000, ← cast_mul_div1000,
    ← cast_mul_div1000, max_div_div_right (by norm_num),
    max_div_div_right (by norm_num), max_div_div_right (by norm_num),
    ← Nat.cast_max, ← Nat.cast_max, ← Nat.cast_max, roundQ_div1000]

/-- C8 (confirmed): `wratio` selects its strategy by the normalized
length ratio.  With `mx` and `mn` the larger and smaller processed
code-point counts, `mx/mn < 1.5` (i.e. `2 mx < 3 mn`) takes the
token-only branch `round(max(base, 0.95 · token_sort,
0.95 · token_set))`; otherwise the partial weight is 0.6 when
`mx/mn > 8` and 0.9 otherwise, giving `round(max(base, w · partial,
w · 0.95 · partial_token_sort, w · 0.95 · partial_token_set))`; and
`wratio("hello world", "world hello", true, true) = 95`. -/
theorem claim_C8 :
    (∀ s1 s2 p1 p2 : Str, s1 ≠ s2 → ¬(s1.isEmpty ≠ s2.isEmpty) →
      p1 = compat.full_process s1 true → p2 = compat.full_process s2 true →
      p1 ≠ [] → p2 ≠ [] →
      compat.wratio s1 s2 true true =
        (if 2 * max p1.length p2.length < 3 * min p1.length p2.length then
          primitives.roundQ (max (max ((compat.ratio p1 p2 : ℚ))
            ((compat.token_sort_ratio p1 p2 true false : ℚ) * (95 / 100)))
            ((compat.token_set_ratio p1 p2 true false : ℚ) * (95 / 100)))
        else
          primitives.roundQ (max (max (max ((compat.ratio p1 p2 : ℚ))
            ((compat.partial_ratio p1 p2 : ℚ)
              * (if 8 * min p1.length p2.length < max p1.length p2.length
                  then (6 : ℚ) / 10 else (9 : ℚ) / 10)))
            ((compat.partial_token_sort_ratio p1 p2 true false : ℚ)
              * (95 / 100)
              * (if 8 * min p1.length p2.length < max p1.length p2.length
                  then (6 : ℚ) / 10 else (9 : ℚ) / 10)))
            ((compat.partial_token_set_ratio p1 p2 true false : ℚ)
              * (95 / 100)
              * (if 8 * min p1.length p2.length < max p1.length p2.length
                  then (6 : ℚ) / 10 else (9 : ℚ) / 10))))) ∧
    compat.wratio "hello world".toList "world hello".toList true true = 95 := by
  refine ⟨?_, by decide⟩
  intro s1 s2 p1 p2 h12 hxor hp1 hp2 h1 h2
  unfold compat.wratio
  rw [if_neg h12, if_neg hxor]
  show compat.wratioCore (compat.full_process s1 true)
    (compat.full_process s2 true) = _
  rw [← hp1, ← hp2]
  have hmn : 0 < min p1.length p2.length := by
    have hl1 : 0 < p1.length := List.length_pos.mpr h1
    have hl2 : 0 < p2.length := List.length_pos.mpr h2
    omega
  simp only [compat.wratioCore]
  by_cases hc : 2 * max p1.length p2.length < 3 * min p1.length p2.length
  · rw [if_neg (not_not_intro (show compat.lenRatioLt15 _ _ from ⟨hmn, hc⟩)),
      if_pos hc, foldMax1000_three]
    norm_num
  · rw [if_pos (show ¬ compat.lenRatioLt15 _ _ from fun hh => hc hh.2),
      if_neg hc]
    by_cases hg : 8 * min p1.length p2.length < max p1.length p2.length
    · rw [if_pos (show compat.lenRatioGt8 _ _ from hg),
        if_pos (show compat.lenRatioGt8 _ _ from hg), if_pos hg,
        foldMax1000_four]
      congr 1
      ring
    · rw [if_neg (show ¬ compat.lenRatioGt8 _ _ from hg),
        if_neg (show ¬ compat.lenRatioGt8 _ _ from hg), if_neg hg,
        foldMax1000_four]
      congr 1
      ring

/-- C8 (witness): the universally quantified part at the documented
pair (whose processing is the identity). -/
theorem claim_C8_witness :
    compat.wratio "hello world".toList "world hello".toList true true =
      (if 2 * max "hello world".toList.length "world hello".toList.length
          < 3 * min "hello world".toList.length "world hello".toList.length
        then
        primitives.roundQ (max (max
          ((compat.ratio "hello world".toList "world hello".toList : ℚ))
          ((compat.token_sort_ratio "hello world".toList "world hello".toList
              true false : ℚ) * (95 / 100)))
          ((compat.token_set_ratio "hello world".toList "world hello".toList
              true false : ℚ) * (95 / 100)))
      else
        primitives.roundQ (max (max (max
          ((compat.ratio "hello world".toList "world hello".toList : ℚ))
          ((compat.partial_ratio "hello world".toList "world hello".toList
              : ℚ)
            * (if 8 * min "hello world".toList.length
                  "world hello".toList.length
                < max "hello world".toList.length "world hello".toList.length
                then (6 : ℚ) / 10 else (9 : ℚ) / 10)))
          ((compat.partial_token_sort_ratio "hello world".toList
              "world hello".toList true false : ℚ) * (95 / 100)
            * (if 8 * min "hello world".toList.length
                  "world hello".toList.length
                < max "hello world".toList.length "world hello".toList.length
                then (6 : ℚ) / 10 else (9 : ℚ) / 10)))
          ((compat.partial_token_set_ratio "hello world".toList
              "world hello".toList true false : ℚ) * (95 / 100)
            * (if 8 * min "hello world".toList.length
                  "world hello".toList.length
                < max "hello world".toList.length "world hello".toList.length
                then (6 : ℚ) / 10 else (9 : ℚ) / 10)))) :=
  claim_C8.1 "hello world".toList "world hello".toList
    "hello world".toList "world hello".toList
    (by decide) (by decide) (by decide) (by decide) (by decide) (by decide)

/-- C9 (code bug): the claim — and spec section 7 — promise a score
in [0, 100] for every pair of inputs, but `simple_ratio("wxya",
"zaqq")` does not return: `get_matching_blocks` queues the sub-range
`(0, 3, 0, 1)` whose first window is longer than its second, violating
`find_longest_match`'s `debug_assert!(high1 - low1 <= high2 - low2)`
(a panic in debug builds; in release builds the wrapped
`(high2 - low2) - size + 1` makes the slice
`longsub[window_start..window_start + size]` go out of bounds, also a
panic).  The assertion-checked embedding returns `none` on this
input. -/
theorem claim_C9_code_bug :
    primitives.simple_ratioChecked "wxya".toList "zaqq".toList = none := by
  decide

/-- C10 (confirmed): every public scoring function returns 100 on two
equal raw inputs, for every flag combination: the `check_trivial!`
equality test runs before any normalization (so this also covers
strings that normalization would change, e.g. all-punctuation strings
that normalize to empty, and the empty string itself). -/
theorem claim_C10 (s : Str) (fa fp : Bool) :
    fuzz.ratio s s = 100 ∧ fuzz.partial_ratio s s = 100 ∧
    fuzz.token_sort_ratio s s fa fp = 100 ∧
    fuzz.partial_token_sort_ratio s s fa fp = 100 ∧
    fuzz.token_set_ratio s s fa fp = 100 ∧
    fuzz.partial_token_set_ratio s s fa fp = 100 ∧
    fuzz.qratio s s fa = 100 ∧ fuzz.wratio s s fa fp = 100 ∧
    compat.wratio s s fa fp = 100 := by
  refine ⟨?_, ?_, ?_, ?_, ?_, ?_, ?_, ?_, ?_⟩ <;>
    simp [fuzz.ratio, fuzz.partial_ratio, fuzz.token_sort_ratio,
      fuzz.token_sort, fuzz.partial_token_sort_ratio, fuzz.token_set_ratio,
      fuzz.token_set, fuzz.partial_token_set_ratio, fuzz.qratio, fuzz.wratio,
      compat.wratio]

end FuzzyWuzzy
